import Mathlib

/-!
# Verification of the shakesco-silent silent-payments library

A shallow embedding, in Lean 4, of the JavaScript sources of the
shakesco-silent repository (BIP-352 silent payments): the Bech32/Bech32m
codec (`src/utils/bech32.js`), the Taproot helpers (`src/utils/taproot.js`),
elliptic-curve / hashing utilities (`src/utils/utils.js`, `src/utils/label.js`),
the silent-payment address codec (`src/classes/KeyGeneration.js`) and the
protocol engine `SilentPaymentBuilder` (create / scan / spend).

Modelling conventions, used throughout:

* JavaScript strings are modelled as `List Nat` of character codes; JS byte
  `Buffer`s as `List Nat` of byte values.  `strB` converts a Lean string
  literal to its code list.
* `bn.js` big numbers are modelled as `Nat`, with reductions `% n` written
  exactly where the source performs `.umod`/`.mod`.
* secp256k1 points are modelled by a type `Point` carrying an `AddCommGroup`
  instance, together with a record `EC` of the operations the source takes
  from the `elliptic` package (generator, curve order, point codecs, x/y
  accessors).  `point.mul k` becomes `k • p`, `point.add q` becomes `p + q`.
* SHA-256 is passed explicitly (`sha : List Nat → List Nat`) to the
  functions that hash; a concrete executable SHA-256 (`Sha256.sha256`) is
  defined for evaluating the code on explicit inputs.
* JavaScript exceptions are modelled with `Except String`.
-/

/-- Character codes of a Lean string literal (models a JS string). -/
def strB (s : String) : List Nat := s.toList.map Char.toNat

/-- JS `String.prototype.toLowerCase` on one ASCII character code. -/
def toLowerCh (c : Nat) : Nat := if 65 ≤ c ∧ c ≤ 90 then c + 32 else c

/-- JS `String.prototype.toUpperCase` on one ASCII character code. -/
def toUpperCh (c : Nat) : Nat := if 97 ≤ c ∧ c ≤ 122 then c - 32 else c

/-- JS `String.prototype.lastIndexOf` restricted to a single character,
returning `none` for the JS result `-1`. -/
def lastIndexOf : List Nat → Nat → Option Nat
  | [], _ => none
  | c :: rest, a =>
    match lastIndexOf rest a with
    | some i => some (i + 1)
    | none => if c == a then some 0 else none

/-- Big-endian interpretation of a byte list as a natural number
(models `new BN(buffer)` of bn.js, which reads buffers big-endian). -/
def bytesToNat (l : List Nat) : Nat := l.foldl (fun a b => a * 256 + b) 0

/-- Big-endian byte serialization of `n % 2^(8·len)` on `len` bytes.
This is the value computed by `toBytes` of `src/utils/utils.js` (which goes
through a zero-padded hex string and keeps the last `len` bytes). -/
def toBytesBE (n : Nat) : Nat → List Nat
  | 0 => []
  | len + 1 => ((n >>> (8 * len)) &&& 255) :: toBytesBE n len

namespace Bech32

/-- The bech32 character set of `src/utils/bech32.js`, as character codes. -/
def CHARSET : List Nat := strB ("qpzry9x8gf2tvdw0s3jn54khce6mua7l")

/-- Generator coefficients for the checksum calculation. -/
def GENERATOR : List Nat := [0x3b6a57b2, 0x26508e6d, 0x1ea119fa, 0x3d4233dd, 0x2a1462b3]

/-- `ENCODING_CONST.bech32m`; every call site in the repository uses the
default `"bech32m"` encoding, so the variant is fixed to this constant. -/
def ENCODING_CONST : Nat := 0x2bc830a3

/-- The separator character `"1"` (`Bech32Consts.separator`). -/
def separator : Nat := 49

/-- `Bech32Consts.checksumStrLen`. -/
def checksumStrLen : Nat := 6

/-- One iteration of the `for (const value of values)` loop of `polyMod`:
shift the 30-bit checksum register, xor in the 5-bit value, and xor the
generator coefficients selected by the bits of the old top 5 bits. -/
def polyModStep (chk value : Nat) : Nat :=
  let top := chk >>> 25
  let chk1 := ((chk &&& 0x1ffffff) <<< 5) ^^^ value
  (List.range 5).foldl (fun c i => if (top >>> i) &&& 1 == 1 then c ^^^ GENERATOR.getD i 0 else c) chk1

/-- `polyMod` of `src/utils/bech32.js`. -/
def polyMod (values : List Nat) : Nat := values.foldl polyModStep 1

/-- `expandHrp`: high bits of each character, a zero, then the low bits. -/
def expandHrp (hrp : List Nat) : List Nat :=
  hrp.map (fun c => c >>> 5) ++ [0] ++ hrp.map (fun c => c &&& 31)

/-- `createChecksum` (bech32m variant). -/
def createChecksum (hrp data : List Nat) : List Nat :=
  let polymod := polyMod (expandHrp hrp ++ data ++ [0, 0, 0, 0, 0, 0]) ^^^ ENCODING_CONST
  (List.range 6).map (fun i => (polymod >>> (5 * (5 - i))) &&& 31)

/-- `encodeBech32` (with the default separator and bech32m encoding):
`hrp ++ "1" ++ charset encoding of (data ++ checksum)`. -/
def encodeBech32 (hrp data : List Nat) : List Nat :=
  let checksum := createChecksum hrp data
  let combined := data ++ checksum
  hrp ++ [separator] ++ combined.map (fun value => CHARSET.getD value 0)

/-- The `while (bits >= sz)` drain loop shared by `convertToBase32`
(`sz = 5`) and `convertFromBase32` (`sz = 8`): repeatedly decrement `bits`
by `sz` and emit `(accumulator >>> bits) &&& mask`.  `fuel` bounds the
number of iterations; each call passes `fuel = bits`, which always
suffices because every iteration removes `sz ≥ 5` bits. -/
def drain (sz mask : Nat) : Nat → Nat → Nat → List Nat
  | 0, _, _ => []
  | fuel + 1, acc, bits =>
    if sz ≤ bits then ((acc >>> (bits - sz)) &&& mask) :: drain sz mask fuel acc (bits - sz)
    else []

/-- The `for (const value of data)` loop of `convertToBase32`.  The JS
accumulator lives in 32-bit integer arithmetic, but every read
(`(acc >>> (bits - 5)) &&& 31` with `bits ≤ 12`) only touches the low
12 bits, on which the 32-bit wraparound and the unbounded `Nat`
accumulator agree; the accumulator is therefore modelled as a plain `Nat`.
After each byte the drain loop leaves `bits % 5` bits pending. -/
def convertToBase32Core : List Nat → Nat → Nat → (List Nat × Nat × Nat)
  | [], acc, bits => ([], acc, bits)
  | value :: rest, acc, bits =>
    let acc1 := (acc <<< 8) ||| value
    let bits1 := bits + 8
    let out := drain 5 31 bits1 acc1 bits1
    let (l, a, b) := convertToBase32Core rest acc1 (bits1 % 5)
    (out ++ l, a, b)

/-- `convertToBase32`: regroup 8-bit bytes into 5-bit values, zero-padding
the final incomplete group. -/
def convertToBase32 (data : List Nat) : List Nat :=
  let (res, acc, bits) := convertToBase32Core data 0 0
  if 0 < bits then res ++ [(acc <<< (5 - bits)) &&& 31] else res

/-- The `for (const value of data)` loop of `convertFromBase32` (same
32-bit-accumulator remark as for `convertToBase32Core`). -/
def convertFromBase32Core : List Nat → Nat → Nat → List Nat
  | [], _, _ => []
  | value :: rest, acc, bits =>
    let acc1 := (acc <<< 5) ||| value
    let bits1 := bits + 5
    drain 8 255 bits1 acc1 bits1 ++ convertFromBase32Core rest acc1 (bits1 % 8)

/-- `convertFromBase32`: regroup 5-bit values into 8-bit bytes, dropping the
incomplete trailing group. -/
def convertFromBase32 (data : List Nat) : List Nat := convertFromBase32Core data 0 0

/-- `veriCheckSum` (bech32m variant). -/
def veriCheckSum (hrp data : List Nat) : Bool :=
  polyMod (expandHrp hrp ++ data) == ENCODING_CONST

/-- `_isStringMixed`: the string differs both from its lowercase and from its
uppercase image. -/
def isStringMixed (str : List Nat) : Bool :=
  (str.map toLowerCh != str) && (str.map toUpperCh != str)

/-- `decodeBech32` (default separator, checksum length and bech32m
encoding), with each `throw` modelled as `Except.error` of the thrown
message. -/
def decodeBech32 (bechStr : List Nat) : Except String (List Nat × List Nat) :=
  if isStringMixed bechStr then .error ("Invalid bech32 format (string is mixed case)") else
  let s := bechStr.map toLowerCh
  match lastIndexOf s separator with
  | none => .error ("Invalid bech32 format (no separator found)")
  | some sepPos =>
    let hrp := s.take sepPos
    if hrp.length == 0 || hrp.any (fun c => c < 33 || 126 < c) then
      .error ("Invalid bech32 format (HRP not valid)")
    else
      let dataPart := s.drop (sepPos + 1)
      if dataPart.length < checksumStrLen + 1 || dataPart.any (fun c => !(CHARSET.contains c)) then
        .error ("Invalid bech32 format (data part not valid)")
      else
        let intData := dataPart.map (fun c => CHARSET.indexOf c)
        if !(veriCheckSum hrp intData) then .error ("Invalid bech32 checksum")
        else .ok (hrp, intData.take (intData.length - checksumStrLen))

/-! ## Bit-regrouping arithmetic

`chunks k x q` is the list of the `q` top-down `k`-bit digits of `x` (most
significant first), and `valB k l` the number with `k`-bit digits `l`.
These describe what the drain loops of `convertToBase32` /
`convertFromBase32` emit. -/

/-- The `q` low `k`-bit digits of `x`, most significant first. -/
def chunks (k x : Nat) : Nat → List Nat
  | 0 => []
  | q + 1 => ((x >>> (k * q)) &&& (2 ^ k - 1)) :: chunks k x q

/-- Value of a big-endian list of `k`-bit digits. -/
def valB (k : Nat) : List Nat → Nat
  | [] => 0
  | c :: l => c * 2 ^ (k * l.length) + valB k l

theorem chunks_length (k x q : Nat) : (chunks k x q).length = q := by
  induction q with
  | zero => rfl
  | succ q ih => simp [chunks, ih]

theorem chunks_lt (k x q : Nat) : ∀ c ∈ chunks k x q, c < 2 ^ k := by
  induction q with
  | zero => intro c hc; simp [chunks] at hc
  | succ q ih =>
    intro c hc
    rcases List.mem_cons.mp hc with h | h
    · subst h
      rw [Nat.and_pow_two_sub_one_eq_mod]
      exact Nat.mod_lt _ (Nat.pos_pow_of_pos k (by omega))
    · exact ih c h

theorem valB_lt (k : Nat) (l : List Nat) (h : ∀ c ∈ l, c < 2 ^ k) :
    valB k l < 2 ^ (k * l.length) := by
  induction l with
  | nil => simp [valB]
  | cons c l ih =>
    have hc : c < 2 ^ k := h c (List.mem_cons_self c l)
    have hl := ih (fun x hx => h x (List.mem_cons_of_mem c hx))
    simp only [valB, List.length_cons]
    have : c * 2 ^ (k * l.length) + valB k l < (c + 1) * 2 ^ (k * l.length) := by
      rw [Nat.add_mul, Nat.one_mul]; omega
    calc c * 2 ^ (k * l.length) + valB k l
        < (c + 1) * 2 ^ (k * l.length) := this
      _ ≤ 2 ^ k * 2 ^ (k * l.length) := Nat.mul_le_mul_right _ hc
      _ = 2 ^ (k * (l.length + 1)) := by rw [← Nat.pow_add]; ring_nf

theorem valB_chunks (k x q : Nat) : valB k (chunks k x q) = x % 2 ^ (k * q) := by
  induction q with
  | zero => simp [chunks, valB, Nat.mod_one]
  | succ q ih =>
    simp only [chunks, valB, chunks_length, ih, Nat.and_pow_two_sub_one_eq_mod,
      Nat.shiftRight_eq_div_pow]
    have h2 : (2 : Nat) ^ (k * (q + 1)) = 2 ^ (k * q) * 2 ^ k := by
      rw [← Nat.pow_add]; ring_nf
    rw [h2, Nat.mod_mul]
    ring

/-- Dividing a truncated number: `(x % (a·b)) / a = (x / a) % b`. -/
theorem mod_mul_div_eq (x a b : Nat) (ha : 0 < a) : x % (a * b) / a = x / a % b := by
  rw [Nat.mod_mul, Nat.add_comm, Nat.mul_add_div ha, Nat.div_eq_of_lt (Nat.mod_lt _ ha),
    Nat.add_zero]

/-- `chunks` only reads the low `k·q` bits. -/
theorem chunks_mod (k x q m : Nat) (h : k * q ≤ m) :
    chunks k (x % 2 ^ m) q = chunks k x q := by
  induction q with
  | zero => rfl
  | succ q ih =>
    have hq : k * q ≤ m := le_trans (Nat.mul_le_mul_left k (Nat.le_succ q)) h
    simp only [chunks, ih hq]
    congr 1
    simp only [Nat.shiftRight_eq_div_pow, Nat.and_pow_two_sub_one_eq_mod]
    have hm : (2 : Nat) ^ m = 2 ^ (k * q) * 2 ^ (m - k * q) := by
      rw [← Nat.pow_add]; congr 1; omega
    rw [hm, mod_mul_div_eq _ _ _ (Nat.pos_pow_of_pos _ (by omega)),
      Nat.mod_mod_of_dvd _ (Nat.pow_dvd_pow 2 (by
        have := h
        simp only [Nat.mul_succ] at this
        omega))]

theorem chunks_append (k x y q p : Nat) (hy : y < 2 ^ (k * p)) :
    chunks k (x * 2 ^ (k * p) + y) (q + p) = chunks k x q ++ chunks k y p := by
  induction q with
  | zero =>
    simp only [Nat.zero_add, chunks, List.nil_append]
    have hmods : (x * 2 ^ (k * p) + y) % 2 ^ (k * p) = y % 2 ^ (k * p) := by
      simp [Nat.add_mod, Nat.mul_mod_left]
    calc chunks k (x * 2 ^ (k * p) + y) p
        = chunks k ((x * 2 ^ (k * p) + y) % 2 ^ (k * p)) p := (chunks_mod _ _ _ _ le_rfl).symm
      _ = chunks k (y % 2 ^ (k * p)) p := by rw [hmods]
      _ = chunks k y p := chunks_mod _ _ _ _ le_rfl
  | succ q ih =>
    have hstep : (x * 2 ^ (k * p) + y) >>> (k * (q + p)) = x >>> (k * q) := by
      simp only [Nat.shiftRight_eq_div_pow]
      have h1 : (2 : Nat) ^ (k * (q + p)) = 2 ^ (k * p) * 2 ^ (k * q) := by
        rw [← Nat.pow_add]; ring_nf
      rw [h1, ← Nat.div_div_eq_div_mul]
      congr 1
      rw [Nat.mul_comm x, Nat.add_comm, Nat.add_mul_div_left _ _
        (Nat.pos_pow_of_pos _ (by omega)), Nat.div_eq_of_lt hy]
      omega
    have hqp : q + 1 + p = (q + p) + 1 := by omega
    rw [hqp]
    simp only [chunks, List.cons_append]
    rw [hstep, ih]

theorem chunks_valB (k : Nat) (l : List Nat) (h : ∀ c ∈ l, c < 2 ^ k) :
    chunks k (valB k l) l.length = l := by
  induction l with
  | nil => rfl
  | cons c l ih =>
    have hc : c < 2 ^ k := h c (List.mem_cons_self c l)
    have hw : valB k l < 2 ^ (k * l.length) := valB_lt k l (fun x hx => h x (List.mem_cons_of_mem c hx))
    simp only [List.length_cons, chunks, valB]
    congr 1
    · simp only [Nat.shiftRight_eq_div_pow, Nat.and_pow_two_sub_one_eq_mod]
      rw [Nat.mul_comm c, Nat.mul_add_div (Nat.pos_pow_of_pos _ (by omega)),
        Nat.div_eq_of_lt hw, Nat.add_zero, Nat.mod_eq_of_lt hc]
    · have hmod : (c * 2 ^ (k * l.length) + valB k l) % 2 ^ (k * l.length) = valB k l := by
        simp [Nat.add_mod, Nat.mul_mod_left, Nat.mod_eq_of_lt hw]
      rw [← chunks_mod k _ l.length (k * l.length) le_rfl, hmod,
        ih (fun x hx => h x (List.mem_cons_of_mem c hx))]

theorem testBit_false_of_lt {x i : Nat} (h : x < 2 ^ i) {j : Nat} (hij : i ≤ j) :
    x.testBit j = false :=
  Nat.testBit_eq_false_of_lt (lt_of_lt_of_le h (Nat.pow_le_pow_right (by omega) hij))

/-- `(a <<< k) ||| v = a·2^k + v` for `v < 2^k` (the accumulator push
`(accumulator << 8) | value`). -/
theorem shl_or_eq_add (a v k : Nat) (h : v < 2 ^ k) : (a <<< k) ||| v = a * 2 ^ k + v := by
  apply Nat.eq_of_testBit_eq
  intro j
  rw [Nat.testBit_lor, Nat.testBit_shiftLeft, show a * 2 ^ k + v = 2 ^ k * a + v by ring,
    Nat.testBit_mul_pow_two_add a h j]
  by_cases hj : j < k
  · simp [hj, Nat.not_le.mpr hj]
  · push_neg at hj
    simp [hj, Nat.not_lt.mpr hj, testBit_false_of_lt h hj]

/-- Like `shl_or_eq_add` but for xor (disjoint bits). -/
theorem shl_xor_eq_add (a v k : Nat) (h : v < 2 ^ k) : (a <<< k) ^^^ v = a * 2 ^ k + v := by
  apply Nat.eq_of_testBit_eq
  intro j
  rw [Nat.testBit_xor, Nat.testBit_shiftLeft, show a * 2 ^ k + v = 2 ^ k * a + v by ring,
    Nat.testBit_mul_pow_two_add a h j]
  by_cases hj : j < k
  · simp [hj, Nat.not_le.mpr hj]
  · push_neg at hj
    simp [hj, Nat.not_lt.mpr hj, testBit_false_of_lt h hj]

/-- The drain loop emits exactly the top `k`-bit digits above the `r`
leftover bits: with `bits = sz·q + r`, `r < sz` and enough fuel, it emits
`chunks sz (acc >>> r) q`. -/
theorem drain_eq_chunks (sz : Nat) (hsz : 0 < sz) (q r acc : Nat) (hr : r < sz) :
    ∀ fuel, q ≤ fuel → drain sz (2 ^ sz - 1) fuel acc (sz * q + r) = chunks sz (acc >>> r) q := by
  induction q with
  | zero =>
    intro fuel _
    cases fuel with
    | zero => rfl
    | succ f =>
      simp only [drain, chunks]
      rw [if_neg (by omega : ¬ sz ≤ sz * 0 + r)]
  | succ q ih =>
    intro fuel hf
    cases fuel with
    | zero => omega
    | succ f =>
      have hbits : sz * (q + 1) + r = (sz * q + r) + sz := by rw [Nat.mul_succ]; omega
      simp only [drain, chunks]
      rw [hbits, if_pos (by omega)]
      congr 1
      · congr 1
        rw [show sz * q + r + sz - sz = sz * q + r by omega, Nat.add_comm (sz * q) r,
          ← Nat.shiftRight_add]
      · rw [show sz * q + r + sz - sz = sz * q + r by omega]
        exact ih f (by omega)

/-- Splitting a digit stream: the top `q1` digits above position `r + k·p`
followed by the `p` digits above position `r`. -/
theorem chunks_shift_split (k F r p q1 : Nat) :
    chunks k (F >>> r) (q1 + p) = chunks k (F >>> (r + k * p)) q1 ++ chunks k (F >>> r) p := by
  have hdecomp : F >>> r = (F >>> (r + k * p)) * 2 ^ (k * p) + (F >>> r) % 2 ^ (k * p) := by
    rw [Nat.shiftRight_add]
    simp only [Nat.shiftRight_eq_div_pow]
    exact (Nat.div_add_mod' _ _).symm
  conv_lhs => rw [hdecomp]
  rw [chunks_append k _ _ q1 p (Nat.mod_lt _ (Nat.pos_pow_of_pos _ (by omega))),
    chunks_mod k _ p (k * p) le_rfl]

/-- Full characterization of the `convertToBase32` byte loop: the output is
the stream of 5-bit digits of the accumulated bits above the leftover, the
final accumulator is the whole accumulated value, and `(bits + 8·L) % 5`
bits are left pending. -/
theorem convertToBase32Core_spec (data : List Nat) (acc bits : Nat)
    (hdata : ∀ b ∈ data, b < 256) (hbits : bits < 5) :
    convertToBase32Core data acc bits =
      (chunks 5 ((acc * 2 ^ (8 * data.length) + valB 8 data) >>> ((bits + 8 * data.length) % 5))
         ((bits + 8 * data.length) / 5),
       acc * 2 ^ (8 * data.length) + valB 8 data,
       (bits + 8 * data.length) % 5) := by
  induction data generalizing acc bits with
  | nil =>
    simp only [convertToBase32Core, List.length_nil, Nat.mul_zero, Nat.add_zero, valB,
      Nat.pow_zero, Nat.mul_one]
    rw [Nat.mod_eq_of_lt (by omega), Nat.div_eq_of_lt (by omega)]
    rfl
  | cons value rest ih =>
    have hv : value < 256 := hdata value (List.mem_cons_self value rest)
    have hrest : ∀ b ∈ rest, b < 256 := fun b hb => hdata b (List.mem_cons_of_mem value hb)
    have hacc1 : (acc <<< 8) ||| value = acc * 256 + value := shl_or_eq_add acc value 8 hv
    have hwlt : valB 8 rest < 2 ^ (8 * rest.length) := valB_lt 8 rest hrest
    -- the accumulated value after this byte, and its closed form over the tail
    have haccF : (acc * 256 + value) * 2 ^ (8 * rest.length) + valB 8 rest
        = acc * 2 ^ (8 * (value :: rest).length) + valB 8 (value :: rest) := by
      simp only [valB, List.length_cons]
      rw [show (8 : Nat) * (rest.length + 1) = 8 * rest.length + 8 by ring, Nat.pow_add,
        show ((2 : Nat) ^ 8 : Nat) = 256 by norm_num]
      ring
    have hdrain : drain 5 31 (bits + 8) (acc * 256 + value) (bits + 8)
        = chunks 5 ((acc * 256 + value) >>> ((bits + 8) % 5)) ((bits + 8) / 5) := by
      rw [show (31 : Nat) = 2 ^ 5 - 1 by norm_num]
      conv_lhs => rw [show bits + 8 = 5 * ((bits + 8) / 5) + (bits + 8) % 5 by omega]
      exact drain_eq_chunks 5 (by omega) _ _ _ (by omega) _ (by omega)
    have ihr := ih (acc * 256 + value) ((bits + 8) % 5) hrest (by omega)
    simp only [convertToBase32Core, hacc1, ihr, hdrain]
    refine Prod.ext ?_ (Prod.ext ?_ ?_)
    · -- the emitted digit lists coincide
      simp only []
      rw [haccF]
      have hcount : (bits + 8 * (value :: rest).length) / 5
          = (bits + 8) / 5 + ((bits + 8) % 5 + 8 * rest.length) / 5 := by
        simp only [List.length_cons]; omega
      have hrT : ((bits + 8) % 5 + 8 * rest.length) % 5
          = (bits + 8 * (value :: rest).length) % 5 := by
        simp only [List.length_cons]; omega
      rw [hcount, chunks_shift_split 5 _ _ _ _]
      congr 1
      · -- high digits: drained now
        have hsplitexp : (bits + 8 * (value :: rest).length) % 5
              + 5 * (((bits + 8) % 5 + 8 * rest.length) / 5)
            = (bits + 8) % 5 + 8 * rest.length := by
          simp only [List.length_cons]; omega
        rw [hsplitexp]
        congr 1
        -- shifting the tail away recovers the pre-tail accumulator
        rw [← haccF]
        simp only [Nat.shiftRight_eq_div_pow, Nat.pow_add]
        rw [show (2 : Nat) ^ ((bits + 8) % 5) * 2 ^ (8 * rest.length)
            = 2 ^ (8 * rest.length) * 2 ^ ((bits + 8) % 5) by ring,
          ← Nat.div_div_eq_div_mul, Nat.mul_comm (acc * 256 + value),
          Nat.mul_add_div (Nat.pos_pow_of_pos _ (by omega)), Nat.div_eq_of_lt hwlt]
        simp
      · rw [hrT]
    · simp only []
      rw [haccF]
    · simp only [List.length_cons]
      omega

/-- `convertToBase32` computes the 5-bit digits of the input bytes, padded
with `(5 - 8·L % 5) % 5` zero bits at the bottom. -/
theorem convertToBase32_spec (data : List Nat) (hdata : ∀ b ∈ data, b < 256) :
    convertToBase32 data =
      chunks 5 (valB 8 data <<< ((5 - (8 * data.length) % 5) % 5)) ((8 * data.length + 4) / 5) := by
  have hcore := convertToBase32Core_spec data 0 0 hdata (by omega)
  set L := data.length with hL
  set W := valB 8 data with hW
  have hWlt : W < 2 ^ (8 * L) := valB_lt 8 data hdata
  simp only [Nat.zero_add, Nat.zero_mul] at hcore
  unfold convertToBase32
  rw [hcore]
  simp only
  by_cases hr0 : (8 * L) % 5 = 0
  · rw [if_neg (by omega)]
    have h2 : (8 * L + 4) / 5 = (8 * L) / 5 := by omega
    rw [hr0, h2]
    norm_num
  · rw [if_pos (by omega)]
    set r := (8 * L) % 5 with hrdef
    have hrlt : r < 5 := by omega
    have hpad : (5 - r) % 5 = 5 - r := by omega
    have hm : (8 * L + 4) / 5 = (8 * L) / 5 + 1 := by omega
    rw [hpad, hm]
    have hdecomp : W <<< (5 - r) = (W >>> r) * 2 ^ (5 * 1) + (W % 2 ^ r) * 2 ^ (5 - r) := by
      rw [Nat.shiftLeft_eq_mul_pow, Nat.shiftRight_eq_div_pow]
      have hsplit : W = 2 ^ r * (W / 2 ^ r) + W % 2 ^ r := (Nat.div_add_mod _ _).symm
      calc W * 2 ^ (5 - r) = (2 ^ r * (W / 2 ^ r) + W % 2 ^ r) * 2 ^ (5 - r) := by rw [← hsplit]
        _ = (W / 2 ^ r) * (2 ^ r * 2 ^ (5 - r)) + (W % 2 ^ r) * 2 ^ (5 - r) := by ring
        _ = (W / 2 ^ r) * 2 ^ (5 * 1) + (W % 2 ^ r) * 2 ^ (5 - r) := by
            rw [← Nat.pow_add, show r + (5 - r) = 5 * 1 by omega]
    have hylt : (W % 2 ^ r) * 2 ^ (5 - r) < 2 ^ (5 * 1) := by
      have h1 : W % 2 ^ r < 2 ^ r := Nat.mod_lt _ (Nat.pos_pow_of_pos _ (by omega))
      calc (W % 2 ^ r) * 2 ^ (5 - r) < 2 ^ r * 2 ^ (5 - r) :=
            (Nat.mul_lt_mul_right (Nat.pos_pow_of_pos _ (by omega))).mpr h1
        _ = 2 ^ (5 * 1) := by rw [← Nat.pow_add]; congr 1; omega
    rw [hdecomp, chunks_append 5 _ _ ((8 * L) / 5) 1 hylt]
    congr 1
    simp only [chunks, Nat.mul_zero, Nat.shiftRight_zero]
    rw [show (31 : Nat) = 2 ^ 5 - 1 by norm_num, Nat.and_pow_two_sub_one_eq_mod,
      Nat.and_pow_two_sub_one_eq_mod, show ((2 : Nat) ^ (5 * 1) : Nat) = 2 ^ 5 by norm_num,
      Nat.mul_comm (valB 8 data >>> (8 * data.length % 5)) (2 ^ 5), Nat.mul_add_mod]

/-- Full characterization of the `convertFromBase32` loop: the output is
the stream of 8-bit digits of the accumulated bits above the
`(bits + 5·L) % 8` leftover bits. -/
theorem convertFromBase32Core_spec (data : List Nat) (acc bits : Nat)
    (hdata : ∀ b ∈ data, b < 32) (hbits : bits < 8) :
    convertFromBase32Core data acc bits =
      chunks 8 ((acc * 2 ^ (5 * data.length) + valB 5 data) >>> ((bits + 5 * data.length) % 8))
        ((bits + 5 * data.length) / 8) := by
  induction data generalizing acc bits with
  | nil =>
    simp only [convertFromBase32Core, List.length_nil, Nat.mul_zero, Nat.add_zero, valB,
      Nat.pow_zero, Nat.mul_one]
    rw [Nat.div_eq_of_lt (by omega)]
    rfl
  | cons value rest ih =>
    have hv : value < 32 := hdata value (List.mem_cons_self value rest)
    have hrest : ∀ b ∈ rest, b < 32 := fun b hb => hdata b (List.mem_cons_of_mem value hb)
    have hacc1 : (acc <<< 5) ||| value = acc * 32 + value := shl_or_eq_add acc value 5 hv
    have hwlt : valB 5 rest < 2 ^ (5 * rest.length) := valB_lt 5 rest hrest
    have haccF : (acc * 32 + value) * 2 ^ (5 * rest.length) + valB 5 rest
        = acc * 2 ^ (5 * (value :: rest).length) + valB 5 (value :: rest) := by
      simp only [valB, List.length_cons]
      rw [show (5 : Nat) * (rest.length + 1) = 5 * rest.length + 5 by ring, Nat.pow_add,
        show ((2 : Nat) ^ 5 : Nat) = 32 by norm_num]
      ring
    have hdrain : drain 8 255 (bits + 5) (acc * 32 + value) (bits + 5)
        = chunks 8 ((acc * 32 + value) >>> ((bits + 5) % 8)) ((bits + 5) / 8) := by
      rw [show (255 : Nat) = 2 ^ 8 - 1 by norm_num]
      conv_lhs => rw [show bits + 5 = 8 * ((bits + 5) / 8) + (bits + 5) % 8 by omega]
      exact drain_eq_chunks 8 (by omega) _ _ _ (by omega) _ (by omega)
    have ihr := ih (acc * 32 + value) ((bits + 5) % 8) hrest (by omega)
    simp only [convertFromBase32Core, hacc1, ihr, hdrain]
    rw [haccF]
    have hcount : (bits + 5 * (value :: rest).length) / 8
        = (bits + 5) / 8 + ((bits + 5) % 8 + 5 * rest.length) / 8 := by
      simp only [List.length_cons]; omega
    have hrT : ((bits + 5) % 8 + 5 * rest.length) % 8
        = (bits + 5 * (value :: rest).length) % 8 := by
      simp only [List.length_cons]; omega
    rw [hcount, chunks_shift_split 8 _ _ _ _]
    congr 1
    · have hsplitexp : (bits + 5 * (value :: rest).length) % 8
            + 8 * (((bits + 5) % 8 + 5 * rest.length) / 8)
          = (bits + 5) % 8 + 5 * rest.length := by
        simp only [List.length_cons]; omega
      rw [hsplitexp]
      congr 1
      rw [← haccF]
      simp only [Nat.shiftRight_eq_div_pow, Nat.pow_add]
      rw [show (2 : Nat) ^ ((bits + 5) % 8) * 2 ^ (5 * rest.length)
          = 2 ^ (5 * rest.length) * 2 ^ ((bits + 5) % 8) by ring,
        ← Nat.div_div_eq_div_mul, Nat.mul_comm (acc * 32 + value),
        Nat.mul_add_div (Nat.pos_pow_of_pos _ (by omega)), Nat.div_eq_of_lt hwlt]
      simp
    · rw [hrT]

theorem convertFromBase32_spec (data : List Nat) (hdata : ∀ v ∈ data, v < 32) :
    convertFromBase32 data =
      chunks 8 (valB 5 data >>> ((5 * data.length) % 8)) ((5 * data.length) / 8) := by
  have h := convertFromBase32Core_spec data 0 0 hdata (by omega)
  simpa [convertFromBase32] using h

/-- Round trip of the bit-regrouping pair: the zero padding added by
`convertToBase32` is exactly what `convertFromBase32` truncates away. -/
theorem fromBase32_toBase32 (data : List Nat) (h : ∀ b ∈ data, b < 256) :
    convertFromBase32 (convertToBase32 data) = data := by
  have hto := convertToBase32_spec data h
  have hWlt : valB 8 data < 2 ^ (8 * data.length) := valB_lt 8 data h
  have hBlt : ∀ v ∈ convertToBase32 data, v < 32 := by
    rw [hto]
    intro v hv
    have := chunks_lt 5 _ _ v hv
    omega
  have hlen : (convertToBase32 data).length = (8 * data.length + 4) / 5 := by
    rw [hto, chunks_length]
  have hfrom := convertFromBase32_spec (convertToBase32 data) hBlt
  rw [hlen] at hfrom
  have h5m : 5 * ((8 * data.length + 4) / 5)
      = 8 * data.length + (5 - (8 * data.length) % 5) % 5 := by omega
  have hval : valB 5 (convertToBase32 data)
      = valB 8 data * 2 ^ ((5 - (8 * data.length) % 5) % 5) := by
    rw [hto, valB_chunks, Nat.shiftLeft_eq_mul_pow]
    apply Nat.mod_eq_of_lt
    calc valB 8 data * 2 ^ ((5 - (8 * data.length) % 5) % 5)
        < 2 ^ (8 * data.length) * 2 ^ ((5 - (8 * data.length) % 5) % 5) :=
          (Nat.mul_lt_mul_right (Nat.pos_pow_of_pos _ (by omega))).mpr hWlt
      _ = 2 ^ (5 * ((8 * data.length + 4) / 5)) := by rw [← Nat.pow_add]; congr 1; omega
  rw [hval] at hfrom
  have hshift : (valB 8 data * 2 ^ ((5 - (8 * data.length) % 5) % 5)) >>>
      ((5 * ((8 * data.length + 4) / 5)) % 8) = valB 8 data := by
    rw [show (5 * ((8 * data.length + 4) / 5)) % 8 = (5 - (8 * data.length) % 5) % 5 by omega,
      Nat.shiftRight_eq_div_pow, Nat.mul_div_cancel _ (Nat.pos_pow_of_pos _ (by omega))]
  have hcnt : (5 * ((8 * data.length + 4) / 5)) / 8 = data.length := by omega
  rw [hshift, hcnt] at hfrom
  rw [hfrom]
  exact chunks_valB 8 data h

/-! ## Algebra of the `polyMod` checksum register

`polyModStep` is affine over xor: `polyModStep c v = A c ^^^ v` where
`A c = ((c &&& 0x1ffffff) <<< 5) ^^^ genMask (c >>> 25)` is `GF(2)`-linear
on the 30-bit register.  This gives (i) injectivity of each step, hence
detection of any single-symbol substitution, and (ii) validity of the
checksum appended by `createChecksum`. -/

/-- The xor of the generator coefficients selected by the bits of `top`
(the inner `for` loop of `polyMod` applied to `0`). -/
def genMask (top : Nat) : Nat :=
  (List.range 5).foldl (fun c i => if (top >>> i) &&& 1 == 1 then c ^^^ GENERATOR.getD i 0 else c) 0

theorem xor_right_cancel {a b c : Nat} (h : a ^^^ c = b ^^^ c) : a = b := by
  have := congrArg (fun x => x ^^^ c) h
  simpa [Nat.xor_assoc] using this

theorem shiftLeft_xor_distrib (a b k : Nat) : (a ^^^ b) <<< k = (a <<< k) ^^^ (b <<< k) := by
  apply Nat.eq_of_testBit_eq
  intro j
  simp only [Nat.testBit_shiftLeft, Nat.testBit_xor]
  cases Nat.decLe k j with
  | isTrue h => simp [h]
  | isFalse h => simp [h]

theorem shiftRight_xor_distrib (a b k : Nat) : (a ^^^ b) >>> k = (a >>> k) ^^^ (b >>> k) := by
  apply Nat.eq_of_testBit_eq
  intro j
  simp only [Nat.testBit_shiftRight, Nat.testBit_xor]

theorem foldl_condxor (top : Nat) (l : List Nat) (x v : Nat) :
    l.foldl (fun c i => if (top >>> i) &&& 1 == 1 then c ^^^ GENERATOR.getD i 0 else c) (x ^^^ v)
      = l.foldl (fun c i => if (top >>> i) &&& 1 == 1 then c ^^^ GENERATOR.getD i 0 else c) x
        ^^^ v := by
  induction l generalizing x with
  | nil => rfl
  | cons i l ih =>
    simp only [List.foldl_cons]
    by_cases hb : (top >>> i) &&& 1 == 1
    · rw [if_pos hb, if_pos hb, show (x ^^^ v) ^^^ GENERATOR.getD i 0
        = (x ^^^ GENERATOR.getD i 0) ^^^ v by
          rw [Nat.xor_assoc, Nat.xor_comm v, ← Nat.xor_assoc], ih]
    · rw [if_neg hb, if_neg hb, ih]

theorem xor_left_cancel {a b c : Nat} (h : a ^^^ b = a ^^^ c) : b = c := by
  have h2 := congrArg (fun x => a ^^^ x) h
  simpa [← Nat.xor_assoc, Nat.xor_self, Nat.zero_xor] using h2

/-- `polyModStep` in closed affine form. -/
theorem polyModStep_eq (chk v : Nat) :
    polyModStep chk v = (((chk &&& 0x1ffffff) <<< 5) ^^^ genMask (chk >>> 25)) ^^^ v := by
  unfold polyModStep genMask
  have h1 : ((chk &&& 0x1ffffff) <<< 5) ^^^ v
      = (0 ^^^ ((chk &&& 0x1ffffff) <<< 5)) ^^^ v := by rw [Nat.zero_xor]
  rw [h1, foldl_condxor, foldl_condxor, Nat.xor_comm _ ((chk &&& 0x1ffffff) <<< 5)]

theorem polyModStep_affine (chk v : Nat) : polyModStep chk v = polyModStep chk 0 ^^^ v := by
  rw [polyModStep_eq, polyModStep_eq, Nat.xor_zero]

set_option maxRecDepth 8192 in
theorem genMask_lt : ∀ t, t < 32 → genMask t < 2 ^ 30 := by decide

set_option maxRecDepth 8192 in
theorem genMask_linear :
    ∀ t1, t1 < 32 → ∀ t2, t2 < 32 → genMask (t1 ^^^ t2) = genMask t1 ^^^ genMask t2 := by decide

set_option maxRecDepth 8192 in
theorem genMask_low_inj :
    ∀ t1, t1 < 32 → ∀ t2, t2 < 32 → genMask t1 &&& 31 = genMask t2 &&& 31 → t1 = t2 := by decide

theorem shiftRight25_lt {c : Nat} (hc : c < 2 ^ 30) : c >>> 25 < 32 := by
  rw [Nat.shiftRight_eq_div_pow]
  omega

theorem polyModStep_lt {c v : Nat} (hc : c < 2 ^ 30) (hv : v < 32) :
    polyModStep c v < 2 ^ 30 := by
  rw [polyModStep_eq]
  have h1 : (chk1 : Nat) → chk1 = (c &&& 0x1ffffff) <<< 5 → chk1 < 2 ^ 30 := by
    intro chk1 h
    subst h
    rw [show (0x1ffffff : Nat) = 2 ^ 25 - 1 by norm_num, Nat.and_pow_two_sub_one_eq_mod,
      Nat.shiftLeft_eq_mul_pow]
    have : c % 2 ^ 25 < 2 ^ 25 := Nat.mod_lt _ (by norm_num)
    calc c % 2 ^ 25 * 2 ^ 5 < 2 ^ 25 * 2 ^ 5 :=
          (Nat.mul_lt_mul_right (by norm_num)).mpr this
      _ = 2 ^ 30 := by norm_num
  exact Nat.xor_lt_two_pow
    (Nat.xor_lt_two_pow (h1 _ rfl) (genMask_lt _ (shiftRight25_lt hc)))
    (by omega)

/-- A `polyModStep` with the same symbol is injective on the 30-bit register. -/
theorem polyModStep_inj {c1 c2 v : Nat} (h1 : c1 < 2 ^ 30) (h2 : c2 < 2 ^ 30)
    (he : polyModStep c1 v = polyModStep c2 v) : c1 = c2 := by
  rw [polyModStep_eq, polyModStep_eq] at he
  have he2 := xor_right_cancel he
  -- compare the low five bits: the shifted part contributes nothing there
  have hX : ∀ a : Nat, (a <<< 5) &&& 31 = 0 := by
    intro a
    rw [show (31 : Nat) = 2 ^ 5 - 1 by norm_num, Nat.and_pow_two_sub_one_eq_mod,
      Nat.shiftLeft_eq_mul_pow, Nat.mul_mod_left]
  have hlow : genMask (c1 >>> 25) &&& 31 = genMask (c2 >>> 25) &&& 31 := by
    have hand := congrArg (fun x => x &&& 31) he2
    simp only [Nat.and_xor_distrib_right] at hand
    rw [hX, hX, Nat.zero_xor, Nat.zero_xor] at hand
    exact hand
  have htop : c1 >>> 25 = c2 >>> 25 :=
    genMask_low_inj _ (shiftRight25_lt h1) _ (shiftRight25_lt h2) hlow
  have hshift : (c1 &&& 0x1ffffff) <<< 5 = (c2 &&& 0x1ffffff) <<< 5 := by
    rw [htop] at he2
    exact xor_right_cancel he2
  have hmod : c1 % 2 ^ 25 = c2 % 2 ^ 25 := by
    rw [show (0x1ffffff : Nat) = 2 ^ 25 - 1 by norm_num, Nat.and_pow_two_sub_one_eq_mod,
      Nat.and_pow_two_sub_one_eq_mod, Nat.shiftLeft_eq_mul_pow, Nat.shiftLeft_eq_mul_pow]
      at hshift
    exact Nat.eq_of_mul_eq_mul_right (by norm_num) hshift
  have hd1 := Nat.div_add_mod c1 (2 ^ 25)
  have hd2 := Nat.div_add_mod c2 (2 ^ 25)
  rw [Nat.shiftRight_eq_div_pow, Nat.shiftRight_eq_div_pow] at htop
  omega

theorem foldl_polyModStep_lt {l : List Nat} (hl : ∀ x ∈ l, x < 32) {S : Nat} (hS : S < 2 ^ 30) :
    l.foldl polyModStep S < 2 ^ 30 := by
  induction l generalizing S with
  | nil => exact hS
  | cons v l ih =>
    exact ih (fun x hx => hl x (List.mem_cons_of_mem v hx))
      (polyModStep_lt hS (hl v (List.mem_cons_self v l)))

theorem foldl_polyModStep_inj {l : List Nat} (hl : ∀ x ∈ l, x < 32) :
    ∀ {a b : Nat}, a < 2 ^ 30 → b < 2 ^ 30 → a ≠ b →
      l.foldl polyModStep a ≠ l.foldl polyModStep b := by
  induction l with
  | nil => intro a b _ _ hne; simpa using hne
  | cons v l ih =>
    intro a b ha hb hne
    simp only [List.foldl_cons]
    have hv : v < 32 := hl v (List.mem_cons_self v l)
    exact ih (fun x hx => hl x (List.mem_cons_of_mem v hx))
      (polyModStep_lt ha hv) (polyModStep_lt hb hv)
      (fun he => hne (polyModStep_inj ha hb he))

/-- Substituting a single 5-bit symbol always changes `polyMod`. -/
theorem polyMod_single_sub_ne (pre suf : List Nat) {v1 v2 : Nat}
    (hpre : ∀ x ∈ pre, x < 32) (hsuf : ∀ x ∈ suf, x < 32)
    (hv1 : v1 < 32) (hv2 : v2 < 32) (hne : v1 ≠ v2) :
    polyMod (pre ++ v1 :: suf) ≠ polyMod (pre ++ v2 :: suf) := by
  unfold polyMod
  rw [List.foldl_append, List.foldl_append, List.foldl_cons, List.foldl_cons]
  have hS : pre.foldl polyModStep 1 < 2 ^ 30 := foldl_polyModStep_lt hpre (by norm_num)
  apply foldl_polyModStep_inj hsuf (polyModStep_lt hS hv1) (polyModStep_lt hS hv2)
  intro he
  rw [polyModStep_affine _ v1, polyModStep_affine _ v2] at he
  exact hne (xor_left_cancel he)

theorem xor_xor_swap (a b c d : Nat) : (a ^^^ b) ^^^ (c ^^^ d) = (a ^^^ c) ^^^ (b ^^^ d) := by
  rw [Nat.xor_assoc, Nat.xor_assoc]
  congr 1
  rw [← Nat.xor_assoc, ← Nat.xor_assoc, Nat.xor_comm b c]

/-- The linear part of `polyModStep` distributes over xor on the 30-bit
register. -/
theorem stepA_linear {x y : Nat} (hx : x < 2 ^ 30) (hy : y < 2 ^ 30) :
    polyModStep (x ^^^ y) 0 = polyModStep x 0 ^^^ polyModStep y 0 := by
  rw [polyModStep_eq, polyModStep_eq, polyModStep_eq, Nat.xor_zero, Nat.xor_zero, Nat.xor_zero,
    Nat.and_xor_distrib_right, shiftLeft_xor_distrib, shiftRight_xor_distrib,
    genMask_linear _ (shiftRight25_lt hx) _ (shiftRight25_lt hy), xor_xor_swap]

/-- On values below `2^25` the linear part is a plain left shift. -/
theorem stepA_shift {x : Nat} (hx : x < 2 ^ 25) : polyModStep x 0 = x <<< 5 := by
  rw [polyModStep_eq, Nat.xor_zero,
    show (0x1ffffff : Nat) = 2 ^ 25 - 1 by norm_num, Nat.and_pow_two_sub_one_eq_mod,
    Nat.mod_eq_of_lt hx,
    show x >>> 25 = 0 by rw [Nat.shiftRight_eq_div_pow]; exact Nat.div_eq_of_lt hx,
    show genMask 0 = 0 by decide, Nat.xor_zero]

/-- Folding `polyModStep` over `l` moves an xor-ed perturbation `e` up by
five bits per symbol. -/
theorem foldl_step_xor (l : List Nat) (hl : ∀ x ∈ l, x < 32) :
    ∀ S e, S < 2 ^ 30 → e <<< (5 * l.length) < 2 ^ 30 →
    l.foldl polyModStep (S ^^^ e) = l.foldl polyModStep S ^^^ (e <<< (5 * l.length)) := by
  induction l with
  | nil =>
    intro S e _ _
    simp
  | cons v l ih =>
    intro S e hS he
    have hv : v < 32 := hl v (List.mem_cons_self v l)
    have hlen : (v :: l).length = l.length + 1 := rfl
    rw [hlen] at he
    have hee : e <<< (5 * (l.length + 1)) = (e <<< 5) <<< (5 * l.length) := by
      rw [Nat.shiftLeft_eq_mul_pow, Nat.shiftLeft_eq_mul_pow, Nat.shiftLeft_eq_mul_pow,
        Nat.mul_assoc, ← Nat.pow_add]
      congr 2
      omega
    have he30 : e < 2 ^ 30 := by
      have h1 : e ≤ e <<< (5 * (l.length + 1)) := by
        rw [Nat.shiftLeft_eq_mul_pow]
        exact Nat.le_mul_of_pos_right e (Nat.pos_pow_of_pos _ (by omega))
      omega
    have he25 : e < 2 ^ 25 := by
      have h1 : e * 2 ^ 5 ≤ e <<< (5 * (l.length + 1)) := by
        rw [Nat.shiftLeft_eq_mul_pow]
        exact Nat.mul_le_mul_left e (Nat.pow_le_pow_right (by omega) (by omega))
      have h2 : e * 2 ^ 5 < 2 ^ 30 := by omega
      by_contra hcon
      push_neg at hcon
      have : (2 : Nat) ^ 25 * 2 ^ 5 ≤ e * 2 ^ 5 := Nat.mul_le_mul_right _ hcon
      norm_num at this
      omega
    have hstep : polyModStep (S ^^^ e) v = polyModStep S v ^^^ (e <<< 5) := by
      rw [polyModStep_affine _ v, polyModStep_affine S v, stepA_linear hS he30,
        stepA_shift he25, Nat.xor_assoc, Nat.xor_comm (e <<< 5) v, ← Nat.xor_assoc]
    simp only [List.foldl_cons, hstep, hlen]
    rw [hee]
    exact ih (fun x hx => hl x (List.mem_cons_of_mem v hx)) (polyModStep S v) (e <<< 5)
      (polyModStep_lt hS hv)
      (by rw [← hee]; exact he)

/-- `((pm % 2^m) >>> s) &&& 31` only reads bits `s..s+4`, so the reduction
is invisible when `s + 5 ≤ m`. -/
theorem mod_shift_and31 (pm s m : Nat) (h : s + 5 ≤ m) :
    ((pm % 2 ^ m) >>> s) &&& 31 = (pm >>> s) &&& 31 := by
  rw [Nat.shiftRight_eq_div_pow, Nat.shiftRight_eq_div_pow,
    show (2 : Nat) ^ m = 2 ^ s * 2 ^ (m - s) by rw [← Nat.pow_add]; congr 1; omega,
    mod_mul_div_eq _ _ _ (Nat.pos_pow_of_pos _ (by omega)),
    show (31 : Nat) = 2 ^ 5 - 1 by norm_num, Nat.and_pow_two_sub_one_eq_mod,
    Nat.and_pow_two_sub_one_eq_mod, Nat.mod_mod_of_dvd _ (Nat.pow_dvd_pow 2 (by omega))]

/-- Feeding the 5-bit digits of `pm` into the register is the same as
feeding zeros and xor-ing `pm` at the end (this is why the checksum built
by `createChecksum` verifies). -/
theorem foldl_checkwords :
    ∀ j : Nat, j ≤ 6 → ∀ S pm : Nat, S < 2 ^ 30 → pm < 2 ^ (5 * j) →
    ((List.range j).map (fun i => (pm >>> (5 * (j - 1 - i))) &&& 31)).foldl polyModStep S
      = (List.replicate j 0).foldl polyModStep S ^^^ pm := by
  intro j
  induction j with
  | zero =>
    intro _ S pm _ hpm
    have : pm = 0 := by
      have h1 : (2 : Nat) ^ (5 * 0) = 1 := by norm_num
      omega
    simp [this]
  | succ j ih =>
    intro hj S pm hS hpm
    have hb : (pm >>> (5 * (j + 1 - 1 - 0))) &&& 31 = pm >>> (5 * j) := by
      have h1 : j + 1 - 1 - 0 = j := by omega
      rw [h1]
      have h2 : pm >>> (5 * j) < 2 ^ 5 := by
        rw [Nat.shiftRight_eq_div_pow]
        apply Nat.div_lt_of_lt_mul
        calc pm < 2 ^ (5 * (j + 1)) := hpm
          _ = 2 ^ (5 * j) * 2 ^ 5 := by rw [← Nat.pow_add]; congr 1
      rw [show (31 : Nat) = 2 ^ 5 - 1 by norm_num, Nat.and_pow_two_sub_one_eq_mod,
        Nat.mod_eq_of_lt h2]
    have htail : (List.range j).map ((fun i => (pm >>> (5 * (j + 1 - 1 - i))) &&& 31) ∘ (· + 1))
        = (List.range j).map (fun i => ((pm % 2 ^ (5 * j)) >>> (5 * (j - 1 - i))) &&& 31) := by
      apply List.map_congr_left
      intro i hi
      have hij : i < j := List.mem_range.mp hi
      simp only [Function.comp]
      rw [mod_shift_and31 _ _ _ (by omega)]
      congr 2
      omega
    rw [List.range_succ_eq_map, List.map_cons, List.map_map, htail, List.foldl_cons, hb,
      polyModStep_affine S (pm >>> (5 * j))]
    have hwords : ∀ x ∈ (List.range j).map
        (fun i => ((pm % 2 ^ (5 * j)) >>> (5 * (j - 1 - i))) &&& 31), x < 32 := by
      intro x hx
      rcases List.mem_map.mp hx with ⟨i, _, hxeq⟩
      rw [← hxeq, show (31 : Nat) = 2 ^ 5 - 1 by norm_num, Nat.and_pow_two_sub_one_eq_mod]
      have : ((pm % 2 ^ (5 * j)) >>> (5 * (j - 1 - i))) % 2 ^ 5 < 2 ^ 5 :=
        Nat.mod_lt _ (by norm_num)
      omega
    have hD : polyModStep S 0 < 2 ^ 30 := polyModStep_lt hS (by omega)
    have hlenw : ((List.range j).map
        (fun i => ((pm % 2 ^ (5 * j)) >>> (5 * (j - 1 - i))) &&& 31)).length = j := by
      simp
    have hshiftlt : (pm >>> (5 * j)) <<< (5 * j) < 2 ^ 30 := by
      rw [Nat.shiftLeft_eq_mul_pow]
      have h2 : pm >>> (5 * j) < 2 ^ 5 := by
        rw [Nat.shiftRight_eq_div_pow]
        apply Nat.div_lt_of_lt_mul
        calc pm < 2 ^ (5 * (j + 1)) := hpm
          _ = 2 ^ (5 * j) * 2 ^ 5 := by rw [← Nat.pow_add]; congr 1
      calc pm >>> (5 * j) * 2 ^ (5 * j) < 2 ^ 5 * 2 ^ (5 * j) :=
            (Nat.mul_lt_mul_right (Nat.pos_pow_of_pos _ (by omega))).mpr h2
        _ = 2 ^ (5 * j + 5) := by rw [← Nat.pow_add]; congr 1; omega
        _ ≤ 2 ^ 30 := Nat.pow_le_pow_right (by omega) (by omega)
    rw [show polyModStep S 0 ^^^ pm >>> (5 * j)
        = polyModStep S 0 ^^^ pm >>> (5 * j) from rfl]
    rw [foldl_step_xor _ hwords (polyModStep S 0) (pm >>> (5 * j)) hD (by rw [hlenw]; exact hshiftlt)]
    rw [hlenw]
    rw [ih (by omega) (polyModStep S 0) (pm % 2 ^ (5 * j)) hD
      (Nat.mod_lt _ (Nat.pos_pow_of_pos _ (by omega)))]
    rw [show List.replicate (j + 1) 0 = 0 :: List.replicate j 0 from rfl, List.foldl_cons]
    rw [Nat.xor_assoc]
    congr 1
    rw [Nat.xor_comm]
    rw [shl_xor_eq_add _ _ _ (Nat.mod_lt _ (Nat.pos_pow_of_pos _ (by omega))),
      Nat.shiftRight_eq_div_pow]
    exact Nat.div_add_mod' pm (2 ^ (5 * j))

theorem expandHrp_lt (hrp : List Nat) (hh : ∀ c ∈ hrp, c ≤ 126) :
    ∀ x ∈ expandHrp hrp, x < 32 := by
  intro x hx
  unfold expandHrp at hx
  rcases List.mem_append.mp hx with h1 | h2
  · rcases List.mem_append.mp h1 with h3 | h4
    · rcases List.mem_map.mp h3 with ⟨c, hc, hceq⟩
      have := hh c hc
      rw [← hceq, Nat.shiftRight_eq_div_pow]
      omega
    · simp at h4
      omega
  · rcases List.mem_map.mp h2 with ⟨c, hc, hceq⟩
    rw [← hceq, show (31 : Nat) = 2 ^ 5 - 1 by norm_num, Nat.and_pow_two_sub_one_eq_mod]
    have : c % 2 ^ 5 < 2 ^ 5 := Nat.mod_lt _ (by norm_num)
    omega

/-- `polyMod` over an appended list folds from the prefix state. -/
theorem polyMod_append (l1 l2 : List Nat) :
    polyMod (l1 ++ l2) = l2.foldl polyModStep (polyMod l1) := by
  unfold polyMod
  rw [List.foldl_append]

/-- The checksum appended by `createChecksum` makes `veriCheckSum` succeed. -/
theorem veriCheckSum_createChecksum (hrp data : List Nat) (hh : ∀ c ∈ hrp, c ≤ 126)
    (hd : ∀ v ∈ data, v < 32) :
    veriCheckSum hrp (data ++ createChecksum hrp data) = true := by
  have hexp := expandHrp_lt hrp hh
  have hall : ∀ x ∈ expandHrp hrp ++ data, x < 32 := by
    intro x hx
    rcases List.mem_append.mp hx with h | h
    · exact hexp x h
    · exact hd x h
  have hS : polyMod (expandHrp hrp ++ data) < 2 ^ 30 := foldl_polyModStep_lt hall (by norm_num)
  have hZfold : (List.replicate 6 (0 : Nat)).foldl polyModStep (polyMod (expandHrp hrp ++ data))
      = polyMod (expandHrp hrp ++ data ++ [0, 0, 0, 0, 0, 0]) := by
    rw [show List.replicate 6 (0 : Nat) = [0, 0, 0, 0, 0, 0] from rfl, ← polyMod_append,
      List.append_assoc]
  have hZlt : polyMod (expandHrp hrp ++ data ++ [0, 0, 0, 0, 0, 0]) < 2 ^ 30 := by
    rw [← hZfold]
    exact foldl_polyModStep_lt (by intro x hx; simp at hx; omega) hS
  have hpmlt : polyMod (expandHrp hrp ++ data ++ [0, 0, 0, 0, 0, 0]) ^^^ ENCODING_CONST
      < 2 ^ (5 * 6) := by
    have h2 : ENCODING_CONST < 2 ^ 30 := by norm_num [ENCODING_CONST]
    have h3 := Nat.xor_lt_two_pow (n := 30) hZlt h2
    calc polyMod (expandHrp hrp ++ data ++ [0, 0, 0, 0, 0, 0]) ^^^ ENCODING_CONST
        < 2 ^ 30 := h3
      _ = 2 ^ (5 * 6) := by norm_num
  unfold veriCheckSum
  simp only [beq_iff_eq]
  rw [← List.append_assoc, polyMod_append]
  simp only [createChecksum]
  have hfn : (fun i => (polyMod (expandHrp hrp ++ data ++ [0, 0, 0, 0, 0, 0]) ^^^ ENCODING_CONST)
        >>> (5 * (5 - i)) &&& 31)
      = (fun i => (polyMod (expandHrp hrp ++ data ++ [0, 0, 0, 0, 0, 0]) ^^^ ENCODING_CONST)
        >>> (5 * (6 - 1 - i)) &&& 31) := by
    funext i
    have h615 : (6 : Nat) - 1 - i = 5 - i := by omega
    rw [h615]
  rw [hfn, foldl_checkwords 6 (by omega) (polyMod (expandHrp hrp ++ data))
    (polyMod (expandHrp hrp ++ data ++ [0, 0, 0, 0, 0, 0]) ^^^ ENCODING_CONST) hS hpmlt,
    hZfold, ← Nat.xor_assoc, Nat.xor_self, Nat.zero_xor]

/-! ## Decoding an encoded string -/

theorem charset_getD_mem : ∀ v, v < 32 → CHARSET.getD v 0 ∈ CHARSET := by decide

theorem charset_lower : ∀ c ∈ CHARSET, toLowerCh c = c := by decide

theorem charset_ne_sep : ∀ c ∈ CHARSET, c ≠ separator := by decide

theorem charset_indexOf_getD : ∀ v, v < 32 → CHARSET.indexOf (CHARSET.getD v 0) = v := by decide

theorem charset_contains_of_mem : ∀ c ∈ CHARSET, CHARSET.contains c = true := by decide

theorem createChecksum_length (hrp data : List Nat) : (createChecksum hrp data).length = 6 := by
  unfold createChecksum
  simp

theorem createChecksum_lt (hrp data : List Nat) : ∀ v ∈ createChecksum hrp data, v < 32 := by
  intro v hv
  unfold createChecksum at hv
  rcases List.mem_map.mp hv with ⟨i, _, hveq⟩
  rw [← hveq, show (31 : Nat) = 2 ^ 5 - 1 by norm_num, Nat.and_pow_two_sub_one_eq_mod]
  have h2 : ((polyMod (expandHrp hrp ++ data ++ [0, 0, 0, 0, 0, 0]) ^^^ ENCODING_CONST)
      >>> (5 * (5 - i))) % 2 ^ 5 < 2 ^ 5 := Nat.mod_lt _ (by norm_num)
  omega

theorem map_id_of {α : Type} (l : List α) (f : α → α) (h : ∀ x ∈ l, f x = x) : l.map f = l := by
  induction l with
  | nil => rfl
  | cons c l ih =>
    simp only [List.map_cons, h c (List.mem_cons_self c l),
      ih (fun x hx => h x (List.mem_cons_of_mem c hx))]

theorem lastIndexOf_eq_none {l : List Nat} {a : Nat} (h : a ∉ l) : lastIndexOf l a = none := by
  induction l with
  | nil => rfl
  | cons c l ih =>
    have hc : c ≠ a := fun he => h (he ▸ List.mem_cons_self c l)
    have hl : a ∉ l := fun hm => h (List.mem_cons_of_mem c hm)
    simp only [lastIndexOf, ih hl]
    rw [if_neg (by simpa using hc)]

theorem lastIndexOf_append (pre suf : List Nat) (a : Nat) (hsuf : a ∉ suf) :
    lastIndexOf (pre ++ a :: suf) a = some pre.length := by
  induction pre with
  | nil =>
    simp only [List.nil_append, lastIndexOf, lastIndexOf_eq_none hsuf]
    rw [if_pos (by simp)]
    rfl
  | cons c pre ih =>
    simp only [List.cons_append, lastIndexOf, List.append_eq, ih, List.length_cons]

/-- A valid human-readable part: nonempty, printable ASCII, no uppercase
letters (decoding lowercases first, so an hrp with uppercase letters can
never round-trip). -/
def ValidHrp (hrp : List Nat) : Prop :=
  hrp ≠ [] ∧ ∀ c ∈ hrp, 33 ≤ c ∧ c ≤ 126 ∧ ¬(65 ≤ c ∧ c ≤ 90)

theorem encodeBech32_lower {hrp data : List Nat} (hh : ValidHrp hrp)
    (hdv : ∀ v ∈ data, v < 32) :
    (encodeBech32 hrp data).map toLowerCh = encodeBech32 hrp data := by
  obtain ⟨-, hhc⟩ := hh
  unfold encodeBech32
  apply map_id_of
  intro x hx
  rcases List.mem_append.mp hx with h1 | h2
  · rcases List.mem_append.mp h1 with h3 | h4
    · unfold toLowerCh
      rw [if_neg (hhc x h3).2.2]
    · simp at h4
      subst h4
      rfl
  · rcases List.mem_map.mp h2 with ⟨v, hv, hxeq⟩
    have hv32 : v < 32 := by
      rcases List.mem_append.mp hv with h | h
      · exact hdv v h
      · exact createChecksum_lt hrp data v h
    exact charset_lower _ (hxeq ▸ charset_getD_mem v hv32)

/-- Decoding a well-formed bech32 string (valid hrp, charset data part of
length at least 7) reduces to the checksum verification. -/
theorem decode_wellformed (hrp combined : List Nat) (hh : ValidHrp hrp)
    (hlen7 : 7 ≤ combined.length) (hcomb : ∀ v ∈ combined, v < 32) :
    decodeBech32 (hrp ++ separator :: combined.map (fun v => CHARSET.getD v 0))
      = if veriCheckSum hrp combined then
          .ok (hrp, combined.take (combined.length - checksumStrLen))
        else .error ("Invalid bech32 checksum") := by
  obtain ⟨hne, hhc⟩ := hh
  have hmemchars : ∀ c ∈ combined.map (fun v => CHARSET.getD v 0), c ∈ CHARSET := by
    intro c hc
    rcases List.mem_map.mp hc with ⟨v, hv, hceq⟩
    exact hceq ▸ charset_getD_mem v (hcomb v hv)
  have hlow : (hrp ++ separator :: combined.map (fun v => CHARSET.getD v 0)).map toLowerCh
      = hrp ++ separator :: combined.map (fun v => CHARSET.getD v 0) := by
    apply map_id_of
    intro x hx
    rcases List.mem_append.mp hx with h1 | h2
    · unfold toLowerCh
      rw [if_neg (hhc x h1).2.2]
    · rcases List.mem_cons.mp h2 with h3 | h4
      · subst h3
        rfl
      · exact charset_lower _ (hmemchars _ h4)
  have hmixed : isStringMixed (hrp ++ separator :: combined.map (fun v => CHARSET.getD v 0))
      = false := by
    unfold isStringMixed
    rw [hlow]
    simp
  have hsepchars : separator ∉ combined.map (fun v => CHARSET.getD v 0) := by
    intro hmem
    exact charset_ne_sep _ (hmemchars _ hmem) rfl
  have hidx : lastIndexOf (hrp ++ separator :: combined.map (fun v => CHARSET.getD v 0))
      separator = some hrp.length := lastIndexOf_append hrp _ separator hsepchars
  unfold decodeBech32
  rw [if_neg (by rw [hmixed]; simp)]
  simp only [hlow]
  rw [hidx]
  simp only []
  have htake : (hrp ++ separator :: combined.map (fun v => CHARSET.getD v 0)).take hrp.length
      = hrp := List.take_left hrp _
  have hdrop : (hrp ++ separator :: combined.map (fun v => CHARSET.getD v 0)).drop
      (hrp.length + 1) = combined.map (fun v => CHARSET.getD v 0) := by
    rw [List.append_cons, List.drop_left']
    rw [List.length_append, List.length_cons]
    rfl
  rw [htake, hdrop]
  rw [if_neg (by
    simp only [Bool.or_eq_true, beq_iff_eq, List.length_eq_zero, List.any_eq_true,
      decide_eq_true_eq, not_or]
    refine ⟨hne, ?_⟩
    rintro ⟨c, hc, hor⟩
    have h2 := hhc c hc
    omega)]
  have hlen : (combined.map (fun v => CHARSET.getD v 0)).length = combined.length :=
    List.length_map _ _
  rw [if_neg (by
    simp only [Bool.or_eq_true, decide_eq_true_eq, List.any_eq_true, Bool.not_eq_true',
      not_or, hlen, checksumStrLen]
    constructor
    · omega
    · rintro ⟨c, hc, hcon⟩
      rw [charset_contains_of_mem c (hmemchars c hc)] at hcon
      exact Bool.noConfusion hcon)]
  have hintData : (combined.map (fun v => CHARSET.getD v 0)).map
      (fun c => CHARSET.indexOf c) = combined := by
    rw [List.map_map]
    apply map_id_of
    intro v hv
    exact charset_indexOf_getD v (hcomb v hv)
  rw [hintData]
  cases hvc : veriCheckSum hrp combined with
  | false => simp
  | true => simp

/-- Decoding inverts encoding for every valid hrp and nonempty 5-bit
payload. -/
theorem decode_encode (hrp data : List Nat) (hh : ValidHrp hrp) (hd : data ≠ [])
    (hdv : ∀ v ∈ data, v < 32) :
    decodeBech32 (encodeBech32 hrp data) = .ok (hrp, data) := by
  have hcomb32 : ∀ v ∈ data ++ createChecksum hrp data, v < 32 := by
    intro v hv
    rcases List.mem_append.mp hv with h | h
    · exact hdv v h
    · exact createChecksum_lt hrp data v h
  have hlen : (data ++ createChecksum hrp data).length = data.length + 6 := by
    rw [List.length_append, createChecksum_length]
  have hdlen : 0 < data.length := List.length_pos.mpr hd
  have hwf := decode_wellformed hrp (data ++ createChecksum hrp data) hh (by omega) hcomb32
  rw [veriCheckSum_createChecksum hrp data (fun c hc => (hh.2 c hc).2.1) hdv, if_pos rfl] at hwf
  have henc : encodeBech32 hrp data = hrp ++ separator
      :: (data ++ createChecksum hrp data).map (fun v => CHARSET.getD v 0) := by
    unfold encodeBech32
    rw [List.append_assoc, List.singleton_append]
  rw [henc, hwf, hlen]
  simp only [checksumStrLen, Nat.add_sub_cancel]
  rw [List.take_left data _]

/-- Substituting one data-part symbol of an encoded string by a different
character of the bech32 alphabet always fails checksum verification. -/
theorem decode_substitution (hrp data : List Nat) (hh : ValidHrp hrp) (hd : data ≠ [])
    (hdv : ∀ v ∈ data, v < 32) (j w : Nat) (hj : j < data.length + 6) (hw : w < 32)
    (hwne : w ≠ (data ++ createChecksum hrp data).getD j 0) :
    decodeBech32 (hrp ++ separator
        :: ((data ++ createChecksum hrp data).set j w).map (fun v => CHARSET.getD v 0))
      = .error ("Invalid bech32 checksum") := by
  have hcomb32 : ∀ v ∈ data ++ createChecksum hrp data, v < 32 := by
    intro v hv
    rcases List.mem_append.mp hv with h | h
    · exact hdv v h
    · exact createChecksum_lt hrp data v h
  have hlen : (data ++ createChecksum hrp data).length = data.length + 6 := by
    rw [List.length_append, createChecksum_length]
  have hjlt : j < (data ++ createChecksum hrp data).length := by omega
  have hset32 : ∀ v ∈ (data ++ createChecksum hrp data).set j w, v < 32 := by
    intro v hv
    rcases List.mem_or_eq_of_mem_set hv with h | h
    · exact hcomb32 v h
    · exact h ▸ hw
  have hsetlen : ((data ++ createChecksum hrp data).set j w).length = data.length + 6 := by
    rw [List.length_set, hlen]
  have hdlen : 0 < data.length := List.length_pos.mpr hd
  have hwf := decode_wellformed hrp ((data ++ createChecksum hrp data).set j w) hh
    (by rw [hsetlen]; omega) hset32
  -- the substituted word list fails the checksum
  have hvalid := veriCheckSum_createChecksum hrp data (fun c hc => (hh.2 c hc).2.1) hdv
  have hfail : veriCheckSum hrp ((data ++ createChecksum hrp data).set j w) = false := by
    unfold veriCheckSum at hvalid ⊢
    rw [beq_iff_eq] at hvalid
    rw [beq_eq_false_iff_ne, ne_eq]
    intro hcon
    -- write the original and substituted lists around position j
    have hdecomp : data ++ createChecksum hrp data
        = (data ++ createChecksum hrp data).take j
          ++ ((data ++ createChecksum hrp data).getD j 0)
          :: (data ++ createChecksum hrp data).drop (j + 1) := by
      conv_lhs => rw [← List.take_append_drop j (data ++ createChecksum hrp data)]
      congr 1
      rw [List.getD_eq_getElem _ _ hjlt]
      exact List.drop_eq_getElem_cons hjlt
    have hsetdecomp : (data ++ createChecksum hrp data).set j w
        = (data ++ createChecksum hrp data).take j
          ++ w :: (data ++ createChecksum hrp data).drop (j + 1) := by
      rw [List.set_eq_take_append_cons_drop, if_pos hjlt]
    have hpre : ∀ x ∈ expandHrp hrp ++ (data ++ createChecksum hrp data).take j, x < 32 := by
      intro x hx
      rcases List.mem_append.mp hx with h | h
      · exact expandHrp_lt hrp (fun c hc => (hh.2 c hc).2.1) x h
      · exact hcomb32 x (List.mem_of_mem_take h)
    have hsuf : ∀ x ∈ (data ++ createChecksum hrp data).drop (j + 1), x < 32 :=
      fun x hx => hcomb32 x (List.mem_of_mem_drop hx)
    have hgetlt : (data ++ createChecksum hrp data).getD j 0 < 32 := by
      apply hcomb32
      rw [List.getD_eq_getElem _ _ hjlt]
      exact List.getElem_mem hjlt
    have hne2 := polyMod_single_sub_ne
      (expandHrp hrp ++ (data ++ createChecksum hrp data).take j)
      ((data ++ createChecksum hrp data).drop (j + 1))
      hpre hsuf hw hgetlt hwne
    apply hne2
    rw [List.append_assoc, List.append_assoc, ← hsetdecomp, ← hdecomp, hcon, hvalid]
  rw [hfail] at hwf
  rw [hwf]
  simp

theorem charset_getD_inj : ∀ v, v < 32 → ∀ u, u < 32 →
    CHARSET.getD v 0 = CHARSET.getD u 0 → v = u := by decide

theorem set_append_shift {α : Type} (l1 l2 : List α) (c a : α) (i : Nat) :
    (l1 ++ c :: l2).set (l1.length + 1 + i) a = l1 ++ c :: l2.set i a := by
  induction l1 with
  | nil =>
    simp only [List.nil_append, List.length_nil, Nat.zero_add]
    rw [show 1 + i = i + 1 by omega]
    rfl
  | cons x l1 ih =>
    simp only [List.cons_append, List.length_cons]
    rw [show l1.length + 1 + 1 + i = (l1.length + 1 + i) + 1 by omega]
    show x :: ((l1 ++ c :: l2).set (l1.length + 1 + i) a) = x :: (l1 ++ c :: l2.set i a)
    rw [ih]

theorem getD_append_shift {α : Type} (l1 l2 : List α) (c d : α) (i : Nat) :
    (l1 ++ c :: l2).getD (l1.length + 1 + i) d = l2.getD i d := by
  induction l1 with
  | nil =>
    simp only [List.nil_append, List.length_nil, Nat.zero_add]
    rw [show 1 + i = i + 1 by omega]
    rfl
  | cons x l1 ih =>
    simp only [List.cons_append, List.length_cons]
    rw [show l1.length + 1 + 1 + i = (l1.length + 1 + i) + 1 by omega]
    show (l1 ++ c :: l2).getD (l1.length + 1 + i) d = l2.getD i d
    exact ih

theorem map_set_comm {α β : Type} (l : List α) (f : α → β) (j : Nat) (w : α) :
    (l.map f).set j (f w) = (l.set j w).map f := by
  induction l generalizing j with
  | nil => rfl
  | cons x l ih =>
    cases j with
    | zero => rfl
    | succ j =>
      simp only [List.map_cons]
      show f x :: ((l.map f).set j (f w)) = f x :: (l.set j w).map f
      rw [ih]

theorem encodeBech32_length (hrp data : List Nat) :
    (encodeBech32 hrp data).length = hrp.length + 1 + (data.length + 6) := by
  unfold encodeBech32
  simp [createChecksum_length]
  omega

theorem encodeBech32_getD (hrp data : List Nat) (i : Nat) (hi : i < data.length + 6) :
    (encodeBech32 hrp data).getD (hrp.length + 1 + i) 0
      = CHARSET.getD ((data ++ createChecksum hrp data).getD i 0) 0 := by
  have henc : encodeBech32 hrp data = hrp ++ separator
      :: (data ++ createChecksum hrp data).map (fun v => CHARSET.getD v 0) := by
    unfold encodeBech32
    rw [List.append_assoc, List.singleton_append]
  rw [henc, getD_append_shift]
  have hilt : i < (data ++ createChecksum hrp data).length := by
    rw [List.length_append, createChecksum_length]
    omega
  rw [List.getD_eq_getElem _ _ (by simpa using hilt), List.getD_eq_getElem _ _ hilt,
    List.getElem_map]

/-- Substituting one character of the data part of an encoded string by a
different bech32-alphabet character is rejected by checksum verification. -/
theorem decode_set_char (hrp data : List Nat) (hh : ValidHrp hrp) (hd : data ≠ [])
    (hdv : ∀ v ∈ data, v < 32) (i w : Nat) (hi : i < data.length + 6) (hw : w < 32)
    (hch : CHARSET.getD w 0 ≠ (encodeBech32 hrp data).getD (hrp.length + 1 + i) 0) :
    decodeBech32 ((encodeBech32 hrp data).set (hrp.length + 1 + i) (CHARSET.getD w 0))
      = .error ("Invalid bech32 checksum") := by
  have hcomb32 : ∀ v ∈ data ++ createChecksum hrp data, v < 32 := by
    intro v hv
    rcases List.mem_append.mp hv with h | h
    · exact hdv v h
    · exact createChecksum_lt hrp data v h
  have hilt : i < (data ++ createChecksum hrp data).length := by
    rw [List.length_append, createChecksum_length]
    omega
  have hgetlt : (data ++ createChecksum hrp data).getD i 0 < 32 := by
    apply hcomb32
    rw [List.getD_eq_getElem _ _ hilt]
    exact List.getElem_mem hilt
  have hwne : w ≠ (data ++ createChecksum hrp data).getD i 0 := by
    intro hcon
    apply hch
    rw [encodeBech32_getD hrp data i hi, hcon]
  have henc : encodeBech32 hrp data = hrp ++ separator
      :: (data ++ createChecksum hrp data).map (fun v => CHARSET.getD v 0) := by
    unfold encodeBech32
    rw [List.append_assoc, List.singleton_append]
  rw [henc, set_append_shift, map_set_comm]
  exact decode_substitution hrp data hh hd hdv i w hi hw hwne

end Bech32

example : Bech32.decodeBech32 (strB ("0188a3773")) = .ok (strB ("0"), [7]) := by rfl

example : Bech32.convertFromBase32 (Bech32.convertToBase32 [1, 2, 3, 255]) = [1, 2, 3, 255] := by
  decide

namespace Sha256

/-! An executable SHA-256 over byte lists, used to evaluate the repository's
hashing code on concrete inputs (`crypto.createHash("sha256")` in the
source). Words are `Nat`s reduced modulo `2^32`. -/

def K : List Nat :=
  [1116352408, 1899447441, 3049323471, 3921009573, 961987163, 1508970993, 2453635748,
   2870763221, 3624381080, 310598401, 607225278, 1426881987, 1925078388, 2162078206,
   2614888103, 3248222580, 3835390401, 4022224774, 264347078, 604807628, 770255983, 1249150122,
   1555081692, 1996064986, 2554220882, 2821834349, 2952996808, 3210313671, 3336571891,
   3584528711, 113926993, 338241895, 666307205, 773529912, 1294757372, 1396182291, 1695183700,
   1986661051, 2177026350, 2456956037, 2730485921, 2820302411, 3259730800, 3345764771,
   3516065817, 3600352804, 4094571909, 275423344, 430227734, 506948616, 659060556, 883997877,
   958139571, 1322822218, 1537002063, 1747873779, 1955562222, 2024104815, 2227730452,
   2361852424, 2428436474, 2756734187, 3204031479, 3329325298]

def H0 : List Nat :=
  [1779033703, 3144134277, 1013904242, 2773480762, 1359893119, 2600822924, 528734635,
   1541459225]

def rotr (n x : Nat) : Nat := ((x >>> n) ||| (x <<< (32 - n))) &&& 0xffffffff

def add32 (a b : Nat) : Nat := (a + b) % 4294967296

def bigSigma0 (x : Nat) : Nat := rotr 2 x ^^^ rotr 13 x ^^^ rotr 22 x

def bigSigma1 (x : Nat) : Nat := rotr 6 x ^^^ rotr 11 x ^^^ rotr 25 x

def smallSigma0 (x : Nat) : Nat := rotr 7 x ^^^ rotr 18 x ^^^ (x >>> 3)

def smallSigma1 (x : Nat) : Nat := rotr 17 x ^^^ rotr 19 x ^^^ (x >>> 10)

def ch (x y z : Nat) : Nat := (x &&& y) ^^^ ((x ^^^ 0xffffffff) &&& z)

def maj (x y z : Nat) : Nat := (x &&& y) ^^^ (x &&& z) ^^^ (y &&& z)

/-- Group bytes into big-endian 32-bit words. -/
def toWords : List Nat → List Nat
  | b0 :: b1 :: b2 :: b3 :: rest => (((b0 * 256 + b1) * 256 + b2) * 256 + b3) :: toWords rest
  | _ => []

/-- Extend the 16 block words to the 64-entry message schedule. -/
def extend (w : List Nat) : Nat → List Nat
  | 0 => w
  | n + 1 =>
    extend (w ++ [add32 (add32 (smallSigma1 (w.getD (w.length - 2) 0))
      (w.getD (w.length - 7) 0))
      (add32 (smallSigma0 (w.getD (w.length - 15) 0)) (w.getD (w.length - 16) 0))]) n

def round (st : List Nat) (k w : Nat) : List Nat :=
  let a := st.getD 0 0
  let b := st.getD 1 0
  let c := st.getD 2 0
  let d := st.getD 3 0
  let e := st.getD 4 0
  let f := st.getD 5 0
  let g := st.getD 6 0
  let h := st.getD 7 0
  let t1 := add32 (add32 (add32 h (bigSigma1 e)) (ch e f g)) (add32 k w)
  let t2 := add32 (bigSigma0 a) (maj a b c)
  [add32 t1 t2, a, b, c, add32 d t1, e, f, g]

def compress (h : List Nat) (block : List Nat) : List Nat :=
  let w := extend (toWords block) 48
  let st := (K.zip w).foldl (fun st p => round st p.1 p.2) h
  List.zipWith add32 h st

def pad (msg : List Nat) : List Nat :=
  let len := msg.length
  let zeros := (64 - (len + 9) % 64) % 64
  msg ++ [0x80] ++ List.replicate zeros 0 ++ toBytesBE (8 * len) 8

def toBlocks : List Nat → Nat → List (List Nat)
  | _, 0 => []
  | l, fuel + 1 => if l = [] then [] else l.take 64 :: toBlocks (l.drop 64) fuel

def sha256 (msg : List Nat) : List Nat :=
  let hs := (toBlocks (pad msg) (pad msg).length).foldl compress H0
  (hs.map (fun w => toBytesBE w 4)).join

end Sha256

/-- `taggedHash(data, tag)` of `src/utils/utils.js` (the second, surviving
definition in that file, which is also the one `label.js` re-implements):
`sha256(sha256(tag) ‖ sha256(tag) ‖ data)`, parametrized by the SHA-256
function. -/
def taggedHash (sha : List Nat → List Nat) (data : List Nat) (tag : String) : List Nat :=
  let tagDigest := sha (strB tag)
  sha (tagDigest ++ tagDigest ++ data)

set_option maxRecDepth 100000 in
example : Sha256.sha256 (strB ("abc"))
    = [0xba, 0x78, 0x16, 0xbf, 0x8f, 0x01, 0xcf, 0xea, 0x41, 0x41, 0x40, 0xde, 0x5d, 0xae,
       0x22, 0x23, 0xb0, 0x03, 0x61, 0xa3, 0x96, 0x17, 0x7a, 0x9c, 0xb4, 0x10, 0xff, 0x61,
       0xf2, 0x00, 0x15, 0xad] := by rfl

namespace Taproot

/-- The secp256k1 field prime (`ec.curve.p` of the `elliptic` package). -/
def secp256k1P : Nat :=
  0xFFFFFFFFFFFFFFFFFFFFFFFFFFFFFFFFFFFFFFFFFFFFFFFFFFFFFFFEFFFFFC2F

/-- `P2TRUtils.liftX` of `src/utils/taproot.js`, parametrized by the curve
prime `p` (the source reads `ec.curve.p`; for the repository this is
`secp256k1P`).  Each thrown error is modelled as `Except.error`; the
result is the coordinate pair handed to `ec.curve.point(x, result)`. -/
def liftX (p x : Nat) : Except String (Nat × Nat) :=
  if p ≤ x then .error ("Unable to compute LiftX point")
  else
    let ySq := (x ^ 3 % p + 7) % p
    let y := ySq ^ ((p + 1) / 4) % p
    if y ^ 2 % p ≠ ySq then .error ("Unable to compute LiftX point")
    else .ok (x, if y % 2 = 0 then y else p - y)

/-- `P2TRUtils.calculateTweak` of `src/utils/taproot.js`: the 32-byte
big-endian x-coordinate of the internal point; when a script tree is
given, the plain (untagged) SHA-256 of that x followed by the
concatenation of every leaf's buffers.  Note: no `TapTweak` tagged hash is
applied anywhere. -/
def calculateTweak (sha : List Nat → List Nat) (xcoord : Nat)
    (script : Option (List (List (List Nat)))) : List Nat :=
  let t := toBytesBE xcoord 32
  match script with
  | none => t
  | some leaves => sha (t ++ (leaves.map List.join).join)

theorem natmod_eq_of_cast_eq {p : Nat} [NeZero p] {a b : Nat} (ha : a < p) (hb : b < p)
    (h : (a : ZMod p) = (b : ZMod p)) : a = b := by
  have h2 := congrArg ZMod.val h
  rwa [ZMod.val_natCast, ZMod.val_natCast, Nat.mod_eq_of_lt ha, Nat.mod_eq_of_lt hb] at h2

theorem sub_sq_mod {p y : Nat} (hppos : 0 < p) [NeZero p] (hy : y < p) :
    (p - y) * (p - y) % p = y * y % p := by
  apply natmod_eq_of_cast_eq (Nat.mod_lt _ hppos) (Nat.mod_lt _ hppos)
  rw [ZMod.natCast_mod, ZMod.natCast_mod, Nat.cast_mul, Nat.cast_mul,
    Nat.cast_sub (le_of_lt hy), ZMod.natCast_self, zero_sub, neg_mul_neg]

/-- Euler / Tonelli for `p ≡ 3 (mod 4)`: on quadratic residues,
`a ^ ((p+1)/4)` is a square root. -/
theorem pow_p1div4_sq {p : Nat} (hp : Nat.Prime p) (hp4 : p % 4 = 3) (a : ZMod p)
    (ha : ∃ Y : ZMod p, Y ^ 2 = a) : (a ^ ((p + 1) / 4)) ^ 2 = a := by
  haveI : Fact (Nat.Prime p) := ⟨hp⟩
  obtain ⟨Y, hY⟩ := ha
  by_cases hY0 : Y = 0
  · subst hY0
    have hk0 : (p + 1) / 4 ≠ 0 := by omega
    rw [← hY, zero_pow (two_ne_zero), zero_pow hk0, zero_pow (two_ne_zero)]
  · have hdvd : 4 ∣ p + 1 := by omega
    rw [← hY, ← pow_mul, ← pow_mul]
    have hexp : 2 * ((p + 1) / 4 * 2) = p + 1 := by omega
    rw [hexp, show p + 1 = (p - 1) + 2 by have := hp.two_le; omega, pow_add,
      ZMod.pow_card_sub_one_eq_one hY0, one_mul, hY]

/-- When the curve equation has a root, the power `ySq ^ ((p+1)/4) % p`
computed by `liftX` is a square root of `ySq`. -/
theorem liftX_root {p x : Nat} (hp : Nat.Prime p) (hp4 : p % 4 = 3)
    (hres : ∃ y, y < p ∧ y * y % p = (x ^ 3 % p + 7) % p) :
    ((((x ^ 3 % p + 7) % p) ^ ((p + 1) / 4) % p) ^ 2) % p = (x ^ 3 % p + 7) % p := by
  haveI : Fact (Nat.Prime p) := ⟨hp⟩
  haveI : NeZero p := ⟨hp.ne_zero⟩
  have hppos : 0 < p := hp.pos
  obtain ⟨y0, hy0lt, hy0⟩ := hres
  have hcastres : ∃ Y : ZMod p, Y ^ 2 = (((x ^ 3 % p + 7) % p : Nat) : ZMod p) := by
    refine ⟨(y0 : ZMod p), ?_⟩
    have h1 : ((y0 * y0 % p : Nat) : ZMod p) = (((x ^ 3 % p + 7) % p : Nat) : ZMod p) := by
      rw [hy0]
    rw [ZMod.natCast_mod, Nat.cast_mul] at h1
    rw [pow_two]
    exact h1
  have heuler := pow_p1div4_sq hp hp4 (((x ^ 3 % p + 7) % p : Nat) : ZMod p) hcastres
  apply natmod_eq_of_cast_eq (Nat.mod_lt _ hppos) (Nat.mod_lt _ hppos)
  rw [ZMod.natCast_mod, Nat.cast_pow, ZMod.natCast_mod, Nat.cast_pow, heuler]

/-- The full behaviour of `liftX` over a prime `p ≡ 3 (mod 4)`:
out-of-range and off-curve inputs raise; on-curve inputs yield the point
with the given x-coordinate and an even y-coordinate. -/
theorem liftX_spec (p x : Nat) (hp : Nat.Prime p) (hp4 : p % 4 = 3) :
    (p ≤ x → liftX p x = .error ("Unable to compute LiftX point"))
    ∧ (x < p → ¬(∃ y, y < p ∧ y * y % p = (x ^ 3 % p + 7) % p) →
        liftX p x = .error ("Unable to compute LiftX point"))
    ∧ (x < p → (∃ y, y < p ∧ y * y % p = (x ^ 3 % p + 7) % p) →
        ∃ y, liftX p x = .ok (x, y) ∧ y % 2 = 0 ∧ y * y % p = (x ^ 3 % p + 7) % p) := by
  haveI : Fact (Nat.Prime p) := ⟨hp⟩
  haveI : NeZero p := ⟨hp.ne_zero⟩
  have hppos : 0 < p := hp.pos
  refine ⟨fun hge => by unfold liftX; rw [if_pos hge], ?_, ?_⟩
  · intro hx hno
    unfold liftX
    rw [if_neg (Nat.not_le.mpr hx)]
    simp only []
    rw [if_pos]
    intro hcon
    apply hno
    refine ⟨((x ^ 3 % p + 7) % p) ^ ((p + 1) / 4) % p, Nat.mod_lt _ hppos, ?_⟩
    rw [← pow_two]
    exact hcon
  · intro hx hres
    have hroot := liftX_root hp hp4 hres
    unfold liftX
    rw [if_neg (Nat.not_le.mpr hx)]
    simp only []
    rw [if_neg (fun hne => hne hroot)]
    set yN := ((x ^ 3 % p + 7) % p) ^ ((p + 1) / 4) % p with hyN
    have hyNlt : yN < p := Nat.mod_lt _ hppos
    refine ⟨_, rfl, ?_, ?_⟩
    · by_cases hpar : yN % 2 = 0
      · rw [if_pos hpar]
        exact hpar
      · rw [if_neg hpar]
        have hodd : p % 2 = 1 := by omega
        omega
    · by_cases hpar : yN % 2 = 0
      · rw [if_pos hpar, ← pow_two]
        exact hroot
      · rw [if_neg hpar, sub_sq_mod hppos hyNlt, ← pow_two]
        exact hroot

end Taproot

/-! ## The protocol engine (`SilentPaymentBuilder`, `classes/CreateOutput.js`)

The engine is written against the `elliptic` secp256k1 wrapper and bn.js.
Points are modelled by an abstract type with the curve group structure;
the record `EC` carries the operations the sources use (`point.add` is
`+`, `point.mul k` / `ec.g.mul k` is `k • _`, compressed (de)serialization
and coordinate accessors are record fields).  Scalars are `Nat`s, reduced
`% n` exactly where the source calls `.umod(ec.curve.n)`. -/

/-- The interface the sources consume from `elliptic`'s secp256k1. -/
structure EC (Point : Type) where
  g : Point
  n : Nat
  encodeCompressed : Point → List Nat
  keyFromPublic : List Nat → Point
  getX : Point → Nat
  isOddY : Point → Bool

section Protocol

variable {Point : Type} [AddCommGroup Point]

/-- `toBytes` of `src/utils/utils.js` (hex-string based big-endian
serialization, keeping exactly `length` bytes). -/
def toBytes (v : Nat) (length : Nat) : List Nat := toBytesBE v length

/-- `tweakAddPrivate`: `(key + tweak) umod n`. -/
def tweakAddPrivate (E : EC Point) (key tweak : Nat) : Nat := (key + tweak) % E.n

/-- `tweakMulPrivate`: `(key * tweak) umod n`. -/
def tweakMulPrivate (E : EC Point) (key tweak : Nat) : Nat := key * tweak % E.n

/-- `tweakAddPublic`: `key.add(ec.g.mul(tweak))`. -/
def tweakAddPublic (E : EC Point) (key : Point) (tweak : Nat) : Point := key + tweak • E.g

/-- `tweakMulPublic`: `key.mul(tweak)`. -/
def tweakMulPublic (_ : EC Point) (key : Point) (tweak : Nat) : Point := tweak • key

/-- `negate`: `n - key.getPrivate()`. -/
def negate (E : EC Point) (key : Nat) : Nat := E.n - key

/-- `pubNegate`: reflect the point (`point.neg()`). -/
def pubNegate (_ : EC Point) (key : Point) : Point := -key

/-- Modelled from the spec: the network enumeration of
`src/utils/network.js`, which is not under `src/`; the spec names mainnet
and testnet (plus a regtest decode-only address prefix). -/
inductive Network
  | mainnet
  | testnet
  | regtest
deriving DecidableEq

/-- Modelled from the spec: `TAPROOT_WITNESS_VERSION` of
`src/utils/const.js`, which is not under `src/`; the spec's Taproot
address encodes witness version 1 as the first 5-bit word. -/
def TAPROOT_WITNESS_VERSION : Nat := 1

/-- `P2trAddress` of `src/utils/taproot.js` (address string and x-only
program bytes). -/
structure P2trAddress where
  address : List Nat
  pubkey : List Nat
deriving DecidableEq

/-- `toTaprootAddress` of `src/utils/taproot.js` in the `tweak: false` form
— the only form the protocol engine invokes (`createOutputs` and
`scanOutputs` always pass `{ tweak: false }`, so `toTapRotHex` returns the
point's padded x-coordinate unchanged).  The `tweak: true` path goes
through `P2TRUtils.calculateTweak`, modelled in the `Taproot` namespace. -/
def toTaprootAddress (E : EC Point) (publicKey : Point) (network : Network) : P2trAddress :=
  let pubKey := toBytesBE (E.getX publicKey) 32
  let words := TAPROOT_WITNESS_VERSION :: Bech32.convertToBase32 pubKey
  let hrp := if network = Network.testnet then strB ("tb") else strB ("bc")
  { address := Bech32.encodeBech32 hrp words, pubkey := pubKey }

/-- `ECPrivateInfo` of `src/utils/info.js`. -/
structure ECPrivateInfo where
  privkey : Nat
  isTaproot : Bool
  tweak : Bool := false

/-- An outpoint `{txid, index}` as consumed by `_getInputHash`. -/
structure Outpoint where
  txid : List Nat
  index : Nat

/-- Little-endian serialization (`indexBuffer.writeUInt32LE`). -/
def toBytesLE (v len : Nat) : List Nat := (toBytesBE v len).reverse

/-- The serialized outpoint `reversed-txid ‖ little-endian-32-bit-index`. -/
def serializeOutpoint (o : Outpoint) : List Nat := o.txid.reverse ++ toBytesLE o.index 4

/-- `Buffer.compare`: lexicographic byte comparison, shorter prefix first. -/
def bufferCompare : List Nat → List Nat → Ordering
  | [], [] => .eq
  | [], _ :: _ => .lt
  | _ :: _, [] => .gt
  | a :: as, b :: bs => if a < b then .lt else if b < a then .gt else bufferCompare as bs

/-- The `BuilderSession` state of `SilentPaymentBuilder`: constructor
arguments plus the derived `A_sum` (compressed bytes, the JS keeps the hex
string) and `inputHash` (32-byte buffer), both `none` until computed. -/
structure SilentPaymentBuilder (Point : Type) where
  vinOutpoints : List Outpoint
  pubkeys : List (List Nat)
  network : Network
  receiverTweak : Option (List Nat)
  A_sum : Option (List Nat)
  inputHash : Option (List Nat)

/-- `_getAsum`: point-sum of the supplied public keys, re-encoded through
the compressed codec at every step exactly as the JS reduce does.  An
empty key list leaves the JS `A_sum` undefined (modelled `none`). -/
def _getAsum (E : EC Point) (pubkeys : List (List Nat)) : Option (List Nat) :=
  match pubkeys with
  | [] => none
  | head :: tail =>
    some (tail.foldl (fun acc item =>
      E.encodeCompressed (E.keyFromPublic acc + E.keyFromPublic item)) head)

/-- `_getInputHash`: tagged hash of the lexicographically smallest
serialized outpoint followed by the compressed `A_sum`.  The JS sorts
with `Array.prototype.sort` under the `Buffer.compare` comparator
(modelled by a stable comparison sort under the same comparator).  With
no outpoints the JS indexes `sortedOutpoints[0]` out of bounds (modelled
`none`). -/
def _getInputHash (sha : List Nat → List Nat) (vinOutpoints : List Outpoint)
    (A_sumBytes : List Nat) : Option (List Nat) :=
  let sortedOutpoints := (vinOutpoints.map serializeOutpoint).insertionSort
    (fun a b => bufferCompare a b ≠ Ordering.gt)
  match sortedOutpoints with
  | [] => none
  | lowestOutpoint :: _ =>
    some (taggedHash sha (lowestOutpoint ++ A_sumBytes) ("BIP0352/Inputs"))

/-- `SilentPaymentDestination` of `src/classes/KeyGeneration.js` (an
address — scan/spend public keys, network, version — plus an amount). -/
structure SilentPaymentDestination (Point : Type) where
  B_scan : Point
  B_spend : Point
  network : Network
  version : Nat
  amount : Nat

/-- `SilentPaymentAddress.toString` (also `toAddress`): bech32m encoding of
the version word followed by the base32 regrouping of the two compressed
public keys, with hrp `sp` (`tsp` on testnet). -/
def destToString (E : EC Point) (d : SilentPaymentDestination Point) : List Nat :=
  Bech32.encodeBech32
    (if d.network = Network.testnet then strB ("tsp") else strB ("sp"))
    (d.version :: Bech32.convertToBase32
      (E.encodeCompressed d.B_scan ++ E.encodeCompressed d.B_spend))

/-- Insert-or-append on a JS-object-as-association-list whose values are
arrays (`result[key].push(v)` / `result[key] = [v]`). -/
def objAppend {κ ν : Type} [BEq κ] : List (κ × List ν) → κ → ν → List (κ × List ν)
  | [], k, v => [(k, [v])]
  | (k0, vs) :: rest, k, v =>
    if k0 == k then (k0, vs ++ [v]) :: rest else (k0, vs) :: objAppend rest k v

/-- Insert-or-replace on a JS-object-as-association-list. -/
def objSet {κ ν : Type} [BEq κ] : List (κ × ν) → κ → ν → List (κ × ν)
  | [], k, v => [(k, v)]
  | (k0, v0) :: rest, k, v =>
    if k0 == k then (k0, v) :: rest else (k0, v0) :: objSet rest k v

def objLookup {κ ν : Type} [BEq κ] : List (κ × ν) → κ → Option ν
  | [], _ => none
  | (k0, v0) :: rest, k => if k0 == k then some v0 else objLookup rest k

/-- A JS object key made from an `elliptic` point: the point object defines
no `toString` of its own, so using it as a computed object key coerces it
through `Object.prototype.toString`, i.e. every point yields the same key
`"[object Object]"`. -/
def pointKey {Point : Type} (_ : Point) : String := "[object Object]"

/-- The first loop of `createOutputs`: fold the input private keys into
`a_sum`.  A Taproot input with `tweak` set reaches
`toTweakedTaprootKey`, whose `calculateTweek` passes its arguments to
`taggedHash` in the wrong order, making `Buffer.concat` receive a string
— a thrown `TypeError`, modelled as an error. -/
def sumPrivkeys (E : EC Point) : List ECPrivateInfo → Option Nat → Except String (Option Nat)
  | [], a_sum => .ok a_sum
  | info :: rest, a_sum =>
    if info.isTaproot ∧ info.tweak then
      .error ("TypeError: list argument must be an Array of Buffers")
    else
      let k := if info.isTaproot ∧ E.isOddY (info.privkey • E.g) = true
        then negate E info.privkey else info.privkey
      match a_sum with
      | none => sumPrivkeys E rest (some k)
      | some a => sumPrivkeys E rest (some (tweakAddPrivate E a k))

/-- The grouping loop of `createOutputs`.  Because every `B_scan` point
coerces to the same object key (`pointKey`), all destinations fall into
one group after the first, and the group's ECDH secret is computed from
the FIRST destination's scan key only. -/
def buildGroups (E : EC Point) (a_sum : Nat) (inputHash : List Nat) :
    List (SilentPaymentDestination Point) →
    List (String × (List Nat × List (SilentPaymentDestination Point))) →
    List (String × (List Nat × List (SilentPaymentDestination Point)))
  | [], groups => groups
  | d :: rest, groups =>
    let scanPubkey := pointKey d.B_scan
    let groups1 := match objLookup groups scanPubkey with
      | some (ecdhSharedSecret, recipients) =>
        objSet groups scanPubkey (ecdhSharedSecret, recipients ++ [d])
      | none =>
        let senderPartialSecret := tweakMulPrivate E a_sum (bytesToNat inputHash)
        let ecdhSharedSecret :=
          E.encodeCompressed (tweakMulPublic E d.B_scan senderPartialSecret)
        objSet groups scanPubkey (ecdhSharedSecret, [d])
    buildGroups E a_sum inputHash rest groups1

/-- One `{address, amount}` record of the `createOutputs` result. -/
structure SPResOutput where
  address : P2trAddress
  amount : Nat
deriving DecidableEq

/-- The inner destination loop of `createOutputs`' result phase: per
destination, the `k`-indexed tagged hash of the (decoded and re-encoded)
group secret gives the output point `B_spend + t_k·G`, recorded under the
destination's address string. -/
def perDest (E : EC Point) (sha : List Nat → List Nat) (network : Network)
    (ecdhSharedSecret : List Nat) :
    List (SilentPaymentDestination Point) → Nat →
    List (List Nat × List SPResOutput) → List (List Nat × List SPResOutput)
  | [], _, result => result
  | destination :: rest, k, result =>
    let t_k := taggedHash sha
      (E.encodeCompressed (E.keyFromPublic ecdhSharedSecret) ++ toBytes k 4)
      ("BIP0352/SharedSecret")
    let P_mn := tweakAddPublic E destination.B_spend (bytesToNat t_k)
    let resOutput : SPResOutput :=
      { address := toTaprootAddress E P_mn network, amount := destination.amount }
    perDest E sha network ecdhSharedSecret rest (k + 1)
      (objAppend result (destToString E destination) resOutput)

/-- The result loop over the groups, in insertion order. -/
def buildResult (E : EC Point) (sha : List Nat → List Nat) (network : Network) :
    List (String × (List Nat × List (SilentPaymentDestination Point))) →
    List (List Nat × List SPResOutput) →
    List (List Nat × List SPResOutput)
  | [], result => result
  | (_, (ecdhSharedSecret, destinations)) :: restGroups, result =>
    buildResult E sha network restGroups
      (perDest E sha network ecdhSharedSecret destinations 0 result)

/-- `createOutputs`: compute `a_sum`, publish `A_sum`/`inputHash` on the
session, group the destinations, and derive one Taproot address per
destination.  JS crashes (empty inputs or outpoints, tweaked Taproot
inputs) are modelled as errors. -/
def createOutputs (E : EC Point) (sha : List Nat → List Nat)
    (builder : SilentPaymentBuilder Point)
    (inputPrivKeyInfos : List ECPrivateInfo)
    (silentPaymentDestinations : List (SilentPaymentDestination Point)) :
    Except String (List (List Nat × List SPResOutput) × SilentPaymentBuilder Point) := do
  let a_sumOpt ← sumPrivkeys E inputPrivKeyInfos none
  match a_sumOpt with
  | none => .error ("TypeError: a_sum is null")
  | some a_sum =>
    let A_sum := E.encodeCompressed (a_sum • E.g)
    match _getInputHash sha builder.vinOutpoints A_sum with
    | none => .error ("TypeError: no outpoints")
    | some inputHash =>
      -- the JS `network` variable holds the network of the last destination
      -- iterated by the grouping loop
      let network := match silentPaymentDestinations.getLast? with
        | some d => d.network
        | none => Network.mainnet
      let groups := buildGroups E a_sum inputHash silentPaymentDestinations []
      let result := buildResult E sha network groups []
      .ok (result, { builder with A_sum := some A_sum, inputHash := some inputHash })

/-- `BitcoinScriptOutput` (`src/utils/scriptOutput.js`, a thin container):
the output script bytes (hex string in JS) and the amount. -/
structure BitcoinScriptOutput where
  script : List Nat
  value : Nat
deriving DecidableEq

/-- `SilentPaymentOutput` (defined at the bottom of `CreateOutput.js`). -/
structure SilentPaymentOutput where
  address : P2trAddress
  value : Nat
deriving DecidableEq

/-- `SilentPaymentScanningOutput` (`src/utils/output.js`, a thin container
not under `src/`; modelled from its use sites): the matched output, the
recovered tweak scalar (the JS stores its hex string), and the label value
when a label matched. -/
structure SilentPaymentScanningOutput where
  output : SilentPaymentOutput
  tweak : Nat
  label : Option Nat := none
deriving DecidableEq

/-- The `precomputedLabels` argument: a plain JS object mapping compressed
points (hex) to label scalars.  The code guards the label branch with
`precomputedLabels.isNotEmpty` — a property that does not exist on plain
JS objects (it is Dart API), hence `undefined`/falsy; the field records
the truthiness of that property on the value actually passed. -/
structure JsLabels where
  table : List (List Nat × Nat)
  isNotEmpty : Bool
deriving DecidableEq

/-- The `for (var i = 0; i < length; i++)` loop of `scanOutputs`, for the
fixed `t_k`/`P_k` of the single do-while pass (see `scanOutputs`).  `fuel`
counts the remaining iterations allowed by the captured `length` bound
(`fuel = length - i`); `outputs[i]` is read on the current, spliced array.
On a match the JS `break`s out (ending the whole scan); on no match the
current element is spliced out anyway, skipping the element that shifts
into position `i`; if the label guard is truthy the branch throws, since
`ec.keyFromPublic` cannot parse the 32-byte x-only buffer (and
`tweakAddPublic` is fed a KeyPair where a scalar is expected). -/
def scanFor {Point : Type} [AddCommGroup Point] (E : EC Point) (network : Network)
    (P_k : Point) (t_k : List Nat) (precomputedLabels : JsLabels) :
    Nat → Nat → List BitcoinScriptOutput →
    List (List Nat × SilentPaymentScanningOutput) →
    Except String
      (List (List Nat × SilentPaymentScanningOutput) × List BitcoinScriptOutput)
  | 0, _, outputsToCheck, found => .ok (found, outputsToCheck)
  | fuel + 1, i, outputsToCheck, found =>
    match outputsToCheck[i]? with
    | none => .ok (found, outputsToCheck)
    | some o =>
      let output := o.script.drop 2
      let outputAmount := o.value
      if output = (E.encodeCompressed P_k).drop 1 then
        .ok (objSet found output
          { output := { address := toTaprootAddress E P_k network, value := outputAmount },
            tweak := bytesToNat t_k },
          outputsToCheck.eraseIdx i)
      else if precomputedLabels.isNotEmpty then
        .error ("Unknown point format")
      else
        let outputsToCheck1 := outputsToCheck.eraseIdx i
        if outputsToCheck1.length ≤ i + 1 then .ok (found, outputsToCheck1)
        else scanFor E network P_k t_k precomputedLabels fuel (i + 1) outputsToCheck1 found

/-- `scanOutputs`.  The trailing `while (outputsToCheck.isNotEmpty)` guard
reads a property that JS arrays do not have, so the do-block runs exactly
once, with `k = 0`; a successful match `break`s out of the for loop and
the function returns at most that one match.  Returns the matched outputs
together with the final (mutated) `outputsToCheck` array. -/
def scanOutputs {Point : Type} [AddCommGroup Point] (E : EC Point)
    (sha : List Nat → List Nat) (builder : SilentPaymentBuilder Point)
    (b_scan : Nat) (B_spend : Point) (outputsToCheck : List BitcoinScriptOutput)
    (precomputedLabels : JsLabels) :
    Except String
      (List (List Nat × SilentPaymentScanningOutput) × List BitcoinScriptOutput) :=
  let tweakDataForRecipient := match builder.receiverTweak with
    | some rt => E.keyFromPublic rt
    | none => tweakMulPublic E (E.keyFromPublic (builder.A_sum.getD []))
        (bytesToNat (builder.inputHash.getD []))
  let ecdhSharedSecret := tweakMulPublic E tweakDataForRecipient b_scan
  let k := 0
  let t_k := taggedHash sha (E.encodeCompressed ecdhSharedSecret ++ toBytes k 4)
    ("BIP0352/SharedSecret")
  let P_k := tweakAddPublic E B_spend (bytesToNat t_k)
  scanFor E builder.network P_k t_k precomputedLabels outputsToCheck.length 0 outputsToCheck []

/-- `spendOutputs`: the k = 0 shared-secret tweak (or the supplied
`receiverTweak` bytes) added to the spend key modulo n.  The JS returns
the hex string of this scalar. -/
def spendOutputs {Point : Type} [AddCommGroup Point] (E : EC Point)
    (sha : List Nat → List Nat) (builder : SilentPaymentBuilder Point)
    (b_scan b_spend : Nat) : Nat :=
  let tweakScalar := match builder.receiverTweak with
    | some rt => bytesToNat rt
    | none =>
      let tweakDataForRecipient := tweakMulPublic E
        (E.keyFromPublic (builder.A_sum.getD [])) (bytesToNat (builder.inputHash.getD []))
      let ecdhSharedSecret := tweakMulPublic E tweakDataForRecipient b_scan
      let k := 0
      let t_k := taggedHash sha (E.encodeCompressed ecdhSharedSecret ++ toBytes k 4)
        ("BIP0352/SharedSecret")
      bytesToNat t_k
  tweakAddPrivate E b_spend tweakScalar

/-- `SilentPaymentAddress` of `src/classes/KeyGeneration.js`.  The
constructor rejects any version other than 0; theorems carry that
invariant as a hypothesis. -/
structure SilentPaymentAddress (Point : Type) where
  B_scan : Point
  B_spend : Point
  network : Network
  version : Nat

/-- `SilentPaymentAddress.toString` / `toAddress`. -/
def SilentPaymentAddress.toAddress {Point : Type} (E : EC Point)
    (a : SilentPaymentAddress Point) : List Nat :=
  Bech32.encodeBech32
    (if a.network = Network.testnet then strB ("tsp") else strB ("sp"))
    (a.version :: Bech32.convertToBase32
      (E.encodeCompressed a.B_scan ++ E.encodeCompressed a.B_spend))

/-- `SilentPaymentAddress.fromAddress`: bech32m decode, prefix and version
checks, base32-to-bytes, split into the two 33-byte compressed keys.
(`words[0]` on the decoder's output is always present since the data part
has at least seven characters.) -/
def SilentPaymentAddress.fromAddress {Point : Type} (E : EC Point) (address : List Nat) :
    Except String (SilentPaymentAddress Point) :=
  match Bech32.decodeBech32 address with
  | .error e => .error e
  | .ok (hrpPart, words) =>
    if hrpPart ≠ strB ("sp") ∧ hrpPart ≠ strB ("sprt") ∧ hrpPart ≠ strB ("tsp") then
      .error ("Invalid prefix")
    else
      let version := words.getD 0 0
      if version ≠ 0 then .error ("Invalid version")
      else
        let key := Bech32.convertFromBase32 (words.drop 1)
        .ok { B_scan := E.keyFromPublic (key.take 33)
              B_spend := E.keyFromPublic (key.drop 33)
              network := if hrpPart = strB ("tsp") then Network.testnet else Network.mainnet
              version := version }

end Protocol

/-! ## A concrete instance of the elliptic interface

The protocol engine is parametric in the curve interface `EC` and the hash
function.  To run it on concrete inputs we instantiate the interface over
the additive group `ZMod 5` (generator `1`, group order `5`) with an
executable compressed codec of the same 33-byte shape as secp256k1's, and
a one-byte stand-in hash. -/

/-- A concrete curve interface over `ZMod 5`: generator `1`, order `5`,
compressed encoding `0x02 ‖ 32-byte big-endian x`, decoding by reading the
final byte. -/
def ecToy : EC (ZMod 5) where
  g := 1
  n := 5
  encodeCompressed := fun P => 2 :: toBytesBE P.val 32
  keyFromPublic := fun l => ((l.getD 32 0 : Nat) : ZMod 5)
  getX := fun P => P.val
  isOddY := fun P => decide (P.val % 2 = 1)

/-- A one-byte stand-in hash for concrete runs of the engine (the engine
is parametric in the hash function). -/
def shaToy (msg : List Nat) : List Nat := [msg.foldl (fun a b => a + b) 0 % 251]

/-! ## Claim theorems -/

/-- C10: for every byte array `b`, `convertFromBase32 (convertToBase32 b)`
equals `b`: the zero-padding appended by `convertToBase32` is exactly
dropped by `convertFromBase32`'s truncation of the incomplete trailing
8-bit group, so the regrouping loses no information. -/
theorem C10_base32_roundtrip (data : List Nat) (h : ∀ b ∈ data, b < 256) :
    Bech32.convertFromBase32 (Bech32.convertToBase32 data) = data :=
  Bech32.fromBase32_toBase32 data h

theorem C10_base32_roundtrip_witness :
    (∀ b ∈ [0, 1, 127, 128, 255], b < 256) ∧
      Bech32.convertFromBase32 (Bech32.convertToBase32 [0, 1, 127, 128, 255])
        = [0, 1, 127, 128, 255] :=
  ⟨by decide, C10_base32_roundtrip [0, 1, 127, 128, 255] (by decide)⟩

/-- C6 counterexample: the claim fails as stated, in both conjuncts.
(i) For the empty data list, `decodeBech32 (encodeBech32 "0" [])` rejects
(data part shorter than 7 characters), so `decode ∘ encode` is not the
identity on all data lists.  (ii) The valid encoded string `"0188a3773"`
(the encoding of hrp `"0"`, data `[7]`), after substituting exactly one
character (`a` at index 4 becomes `A`, character code 97 becomes 65), is
accepted by `decodeBech32`, because decoding is case-insensitive. -/
theorem C6_counterexample :
    Bech32.decodeBech32 (Bech32.encodeBech32 (strB ("0")) [])
        = .error ("Invalid bech32 format (data part not valid)")
      ∧ Bech32.encodeBech32 (strB ("0")) [7] = strB ("0188a3773")
      ∧ strB ("0188A3773") = (strB ("0188a3773")).set 4 65
      ∧ (strB ("0188a3773")).getD 4 0 = 97
      ∧ Bech32.decodeBech32 (strB ("0188A3773")) = .ok (strB ("0"), [7]) :=
  ⟨by rfl, by rfl, by rfl, by rfl, by rfl⟩

/-- C6 (amended): for every valid hrp (nonempty, printable, caseless) and
every nonempty sequence of 5-bit values, `decodeBech32 (encodeBech32 hrp
data)` returns exactly `(hrp, data)`; and every substitution of a single
data-part character by a different character of the bech32 alphabet is
rejected by checksum verification. -/
theorem C6_bech32_roundtrip (hrp data : List Nat) (hh : Bech32.ValidHrp hrp)
    (hd : data ≠ []) (hdv : ∀ v ∈ data, v < 32) :
    Bech32.decodeBech32 (Bech32.encodeBech32 hrp data) = .ok (hrp, data)
    ∧ ∀ i w, i < data.length + 6 → w < 32 →
        Bech32.CHARSET.getD w 0
          ≠ (Bech32.encodeBech32 hrp data).getD (hrp.length + 1 + i) 0 →
        Bech32.decodeBech32 ((Bech32.encodeBech32 hrp data).set (hrp.length + 1 + i)
            (Bech32.CHARSET.getD w 0))
          = .error ("Invalid bech32 checksum") :=
  ⟨Bech32.decode_encode hrp data hh hd hdv,
   fun i w hi hw hch => Bech32.decode_set_char hrp data hh hd hdv i w hi hw hch⟩

theorem C6_bech32_roundtrip_witness :
    Bech32.ValidHrp (strB ("0")) ∧ ([7] : List Nat) ≠ [] ∧ (∀ v ∈ [(7 : Nat)], v < 32)
      ∧ Bech32.decodeBech32 (Bech32.encodeBech32 (strB ("0")) [7]) = .ok (strB ("0"), [7])
      ∧ Bech32.decodeBech32 ((Bech32.encodeBech32 (strB ("0")) [7]).set (1 + 1 + 0)
          (Bech32.CHARSET.getD 0 0))
        = .error ("Invalid bech32 checksum") := by
  have hh : Bech32.ValidHrp (strB ("0")) := by
    constructor
    · decide
    · decide
  refine ⟨hh, by decide, by decide, (C6_bech32_roundtrip (strB ("0")) [7] hh (by decide)
    (by decide)).1, ?_⟩
  have h2 := (C6_bech32_roundtrip (strB ("0")) [7] hh (by decide) (by decide)).2 0 0
    (by decide) (by decide) (by decide)
  simpa using h2

/-- C8: over a prime field with `p % 4 = 3` — as for the secp256k1 prime
`Taproot.secp256k1P` that the code reads from the curve configuration —
`liftX` raises for `x ≥ p` and for x with no curve point, and for every
valid on-curve `x < p` returns a point whose x-coordinate is `x` and whose
y-coordinate is even. -/
theorem C8_liftX (p x : Nat) (hp : Nat.Prime p) (hp4 : p % 4 = 3) :
    (p ≤ x → Taproot.liftX p x = .error ("Unable to compute LiftX point"))
    ∧ (x < p → ¬(∃ y, y < p ∧ y * y % p = (x ^ 3 % p + 7) % p) →
        Taproot.liftX p x = .error ("Unable to compute LiftX point"))
    ∧ (x < p → (∃ y, y < p ∧ y * y % p = (x ^ 3 % p + 7) % p) →
        ∃ y, Taproot.liftX p x = .ok (x, y) ∧ y % 2 = 0
          ∧ y * y % p = (x ^ 3 % p + 7) % p) :=
  Taproot.liftX_spec p x hp hp4

theorem C8_liftX_witness :
    Nat.Prime 7 ∧ 7 % 4 = 3
      ∧ (∃ y, Taproot.liftX 7 0 = .ok (0, y) ∧ y % 2 = 0 ∧ y * y % 7 = (0 ^ 3 % 7 + 7) % 7)
      ∧ Taproot.liftX 7 7 = .error ("Unable to compute LiftX point")
      ∧ Taproot.liftX 7 5 = .error ("Unable to compute LiftX point") := by
  have hp : Nat.Prime 7 := by norm_num
  refine ⟨hp, by decide,
    (C8_liftX 7 0 hp (by decide)).2.2 (by decide) ⟨0, by decide, by decide⟩,
    (C8_liftX 7 7 hp (by decide)).1 (by decide),
    (C8_liftX 7 5 hp (by decide)).2.1 (by decide) ?_⟩
  decide

set_option maxRecDepth 1000000 in
/-- C2: evaluation of the code at the failing input. `calculateTweak` with
no script applies no hash at all — the "tweak" is the raw 32-byte
x-coordinate — whereas the claim prescribes
`taggedHash("TapTweak", x(internalPoint) ‖ merkleRoot-or-empty)`; already
at x-coordinate 1 the two differ. -/
theorem C2_calculateTweak_no_hash :
    (∀ (sha : List Nat → List Nat) (x : Nat),
      Taproot.calculateTweak sha x none = toBytesBE x 32)
    ∧ taggedHash Sha256.sha256 (toBytesBE 1 32) ("TapTweak") ≠ toBytesBE 1 32 := by
  refine ⟨fun sha x => rfl, ?_⟩
  decide

set_option maxRecDepth 400000 in
/-- C1 fails on the code: a concrete run over the `ZMod 5` curve instance.
`createOutputs` with one input key and two destinations (same scan/spend
public keys `B_scan = 1·G`, `B_spend = 2·G`, amounts 100 and 200)
produces the two outputs `k = 0, 1` of the single group; feeding exactly
those two candidate outputs (scripts `0x5120 ‖ x-only key`) to
`scanOutputs` with the matching scan private key `b_scan = 1` and the
spend public key recovers only ONE of them (the `k = 0` output, amount
100): after the first match the `for` loop `break`s, and the
`do … while (outputsToCheck.isNotEmpty)` guard reads a property plain JS
arrays do not have, so the loop body never runs again and the `k = 1`
output (amount 200) is never recovered. -/
theorem C1_counterexample :
    ∃ res b' found rem,
      createOutputs ecToy shaToy
          { vinOutpoints := [{ txid := [17], index := 0 }], pubkeys := [],
            network := Network.mainnet, receiverTweak := none,
            A_sum := none, inputHash := none }
          [{ privkey := 3, isTaproot := false }]
          [{ B_scan := 1, B_spend := 2, network := Network.mainnet, version := 0, amount := 100 },
           { B_scan := 1, B_spend := 2, network := Network.mainnet, version := 0, amount := 200 }]
        = .ok (res, b')
      ∧ (res.map Prod.snd).flatten.map SPResOutput.amount = [100, 200]
      ∧ scanOutputs ecToy shaToy b' 1 2
          ((res.map Prod.snd).flatten.map
            (fun r => { script := 0x51 :: 0x20 :: r.address.pubkey, value := r.amount }))
          { table := [], isNotEmpty := false }
        = .ok (found, rem)
      ∧ found.length = 1
      ∧ (∀ e ∈ found, e.2.output.value = 100)
      ∧ rem.length = 1 := by
  refine ⟨_, _, _, _, rfl, ?_, rfl, ?_, ?_, ?_⟩ <;> decide

set_option maxRecDepth 400000 in
/-- C3 fails on the code: a concrete run over the `ZMod 5` curve instance.
The sender pays a labeled address: spend key `B_spend + m·G` with base
`B_spend = 2·G` and label index `m = 1`.  The receiver scans with the
base spend key and a label table that DOES contain `m·G` (keyed by its
compressed encoding): no match is recorded, because the label branch is
guarded by `precomputedLabels.isNotEmpty` — a property plain JS objects
do not have, so the guard is `undefined`/falsy and the branch is
unreachable.  If the caller forces the guard truthy (an object carrying
`isNotEmpty: true`), the branch throws instead of matching:
`ec.keyFromPublic` is applied to the 32-byte x-only output buffer, which
`elliptic` rejects with `Unknown point format`. -/
theorem C3_counterexample :
    ∃ res b' rem,
      createOutputs ecToy shaToy
          { vinOutpoints := [{ txid := [17], index := 0 }], pubkeys := [],
            network := Network.mainnet, receiverTweak := none,
            A_sum := none, inputHash := none }
          [{ privkey := 3, isTaproot := false }]
          [{ B_scan := 1, B_spend := 2 + (1 : Nat) • ecToy.g, network := Network.mainnet,
             version := 0, amount := 100 }]
        = .ok (res, b')
      ∧ (res.map Prod.snd).flatten.map SPResOutput.amount = [100]
      ∧ scanOutputs ecToy shaToy b' 1 2
          ((res.map Prod.snd).flatten.map
            (fun r => { script := 0x51 :: 0x20 :: r.address.pubkey, value := r.amount }))
          { table := [(ecToy.encodeCompressed ((1 : Nat) • ecToy.g), 1)], isNotEmpty := false }
        = .ok ([], rem)
      ∧ scanOutputs ecToy shaToy b' 1 2
          ((res.map Prod.snd).flatten.map
            (fun r => { script := 0x51 :: 0x20 :: r.address.pubkey, value := r.amount }))
          { table := [(ecToy.encodeCompressed ((1 : Nat) • ecToy.g), 1)], isNotEmpty := true }
        = .error ("Unknown point format") := by
  refine ⟨_, _, _, rfl, ?_, rfl, rfl⟩
  decide

/-- Each iteration of the scanning `for` loop only ever splices elements
out of `outputsToCheck`: whatever array state the loop terminates with is
a sublist of the array it started from. -/
theorem scanFor_sublist {Point : Type} [AddCommGroup Point] (E : EC Point)
    (network : Network) (P_k : Point) (t_k : List Nat) (labels : JsLabels) :
    ∀ (fuel i : Nat) (outs : List BitcoinScriptOutput)
      (acc found : List (List Nat × SilentPaymentScanningOutput))
      (rem : List BitcoinScriptOutput),
      scanFor E network P_k t_k labels fuel i outs acc = .ok (found, rem) →
      rem.Sublist outs := by
  intro fuel
  induction fuel with
  | zero =>
    intro i outs acc found rem h
    simp only [scanFor] at h
    cases h
    exact List.Sublist.refl outs
  | succ fuel ih =>
    intro i outs acc found rem h
    simp only [scanFor] at h
    split at h
    · cases h
      exact List.Sublist.refl outs
    · split at h
      · cases h
        exact List.eraseIdx_sublist outs i
      · split at h
        · cases h
        · split at h
          · cases h
            exact List.eraseIdx_sublist outs i
          · exact (ih _ _ _ _ _ h).trans (List.eraseIdx_sublist outs i)

set_option maxRecDepth 400000 in
/-- C9 counterexample: `scanOutputs` mutates the caller's candidate array.
A concrete call (two candidate outputs, neither matching) returns with the
array reduced to a single element — and, because of the splice-then-
increment stride, the surviving element is the SECOND one, which the scan
never even examined. -/
theorem C9_counterexample :
    scanOutputs ecToy shaToy
        { vinOutpoints := [], pubkeys := [], network := Network.mainnet,
          receiverTweak := some [3], A_sum := none, inputHash := none }
        1 2
        [{ script := [0x51, 0x20, 9], value := 7 }, { script := [0x51, 0x20, 8], value := 6 }]
        { table := [], isNotEmpty := false }
      = .ok ([], [{ script := [0x51, 0x20, 8], value := 6 }])
    ∧ [({ script := [0x51, 0x20, 8], value := 6 } : BitcoinScriptOutput)]
      ≠ [{ script := [0x51, 0x20, 9], value := 7 }, { script := [0x51, 0x20, 8], value := 6 }] :=
  ⟨by rfl, by decide⟩

/-- C9 (amended): `scanOutputs` is deterministic — in this embedding it is
a function of its arguments — but it is NOT frame-preserving on
`outputsToCheck`: the call splices elements out of the caller's array, and
the array state on return is a sublist of (in general strictly shorter
than) the list passed in. -/
theorem C9_scan_consumes {Point : Type} [AddCommGroup Point] (E : EC Point)
    (sha : List Nat → List Nat) (builder : SilentPaymentBuilder Point)
    (b_scan : Nat) (B_spend : Point) (outs : List BitcoinScriptOutput)
    (labels : JsLabels) (found : List (List Nat × SilentPaymentScanningOutput))
    (rem : List BitcoinScriptOutput)
    (h : scanOutputs E sha builder b_scan B_spend outs labels = .ok (found, rem)) :
    rem.Sublist outs := by
  simp only [scanOutputs] at h
  exact scanFor_sublist E builder.network _ _ labels outs.length 0 outs [] found rem h

set_option maxRecDepth 400000 in
theorem C9_scan_consumes_witness :
    List.Sublist ([] : List BitcoinScriptOutput) [{ script := [0x51, 0x20, 9], value := 7 }] :=
  C9_scan_consumes ecToy shaToy
    { vinOutpoints := [], pubkeys := [], network := Network.mainnet,
      receiverTweak := some [3], A_sum := none, inputHash := none }
    1 2 [{ script := [0x51, 0x20, 9], value := 7 }]
    { table := [], isNotEmpty := false } [] [] (by rfl)

/-- Scalars act modulo the group order: if `n • g = 0` then reducing a
scalar `% n` does not change the multiple of `g` it selects. -/
theorem nsmul_mod_of_order {Point : Type} [AddCommGroup Point] (g : Point) (n : Nat)
    (hn : n • g = 0) (b : Nat) : (b % n) • g = b • g := by
  conv_rhs => rw [← Nat.mod_add_div' b n]
  rw [add_nsmul, mul_nsmul' g (b / n) n, hn, smul_zero, add_zero]

set_option maxRecDepth 4000 in
/-- C4: with `A_sum` and `inputHash` set and no `receiverTweak`,
`spendOutputs` returns `(b_spend + t) mod n` for
`t = taggedHash("BIP0352/SharedSecret", compressed((A_sum·inputHash)·b_scan) ‖ be32(0))`;
the returned scalar times `G` is the `k = 0` output public key
`B_spend + t·G` (given the order relation `n·G = 0`); and a supplied
`receiverTweak` is used directly as `t`. -/
theorem C4_spendOutputs {Point : Type} [AddCommGroup Point] (E : EC Point)
    (sha : List Nat → List Nat) (builder : SilentPaymentBuilder Point)
    (b_scan b_spend : Nat) (A ih : List Nat)
    (hrt : builder.receiverTweak = none)
    (hA : builder.A_sum = some A) (hih : builder.inputHash = some ih)
    (hn : E.n • E.g = 0) :
    spendOutputs E sha builder b_scan b_spend
        = (b_spend + bytesToNat (taggedHash sha
            (E.encodeCompressed (tweakMulPublic E
                (tweakMulPublic E (E.keyFromPublic A) (bytesToNat ih)) b_scan)
              ++ toBytes 0 4) ("BIP0352/SharedSecret"))) % E.n
      ∧ (spendOutputs E sha builder b_scan b_spend) • E.g
          = tweakAddPublic E (b_spend • E.g) (bytesToNat (taggedHash sha
              (E.encodeCompressed (tweakMulPublic E
                  (tweakMulPublic E (E.keyFromPublic A) (bytesToNat ih)) b_scan)
                ++ toBytes 0 4) ("BIP0352/SharedSecret")))
      ∧ ∀ rt, spendOutputs E sha { builder with receiverTweak := some rt } b_scan b_spend
          = (b_spend + bytesToNat rt) % E.n := by
  have hb : spendOutputs E sha builder b_scan b_spend
      = (b_spend + bytesToNat (taggedHash sha
          (E.encodeCompressed (tweakMulPublic E
              (tweakMulPublic E (E.keyFromPublic A) (bytesToNat ih)) b_scan)
            ++ toBytes 0 4) ("BIP0352/SharedSecret"))) % E.n := by
    simp only [spendOutputs, hrt, hA, hih, Option.getD_some, tweakAddPrivate]
  refine ⟨hb, ?_, fun rt => rfl⟩
  rw [hb, nsmul_mod_of_order E.g E.n hn, add_nsmul]
  rfl

theorem C4_spendOutputs_witness :
    spendOutputs ecToy shaToy
        { vinOutpoints := [], pubkeys := [], network := Network.mainnet,
          receiverTweak := none, A_sum := some (ecToy.encodeCompressed 3),
          inputHash := some [236] } 1 2
        = (2 + bytesToNat (taggedHash shaToy
            (ecToy.encodeCompressed (tweakMulPublic ecToy
                (tweakMulPublic ecToy (ecToy.keyFromPublic (ecToy.encodeCompressed 3))
                  (bytesToNat [236])) 1)
              ++ toBytes 0 4) ("BIP0352/SharedSecret"))) % ecToy.n
      ∧ (spendOutputs ecToy shaToy
          { vinOutpoints := [], pubkeys := [], network := Network.mainnet,
            receiverTweak := none, A_sum := some (ecToy.encodeCompressed 3),
            inputHash := some [236] } 1 2) • ecToy.g
          = tweakAddPublic ecToy ((2 : Nat) • ecToy.g) (bytesToNat (taggedHash shaToy
              (ecToy.encodeCompressed (tweakMulPublic ecToy
                  (tweakMulPublic ecToy (ecToy.keyFromPublic (ecToy.encodeCompressed 3))
                    (bytesToNat [236])) 1)
                ++ toBytes 0 4) ("BIP0352/SharedSecret")))
      ∧ ∀ rt, spendOutputs ecToy shaToy
          { vinOutpoints := [], pubkeys := [], network := Network.mainnet,
            receiverTweak := some rt, A_sum := some (ecToy.encodeCompressed 3),
            inputHash := some [236] } 1 2
          = (2 + bytesToNat rt) % ecToy.n :=
  C4_spendOutputs ecToy shaToy
    { vinOutpoints := [], pubkeys := [], network := Network.mainnet,
      receiverTweak := none, A_sum := some (ecToy.encodeCompressed 3),
      inputHash := some [236] } 1 2 (ecToy.encodeCompressed 3) [236] rfl rfl rfl (by decide)

theorem bufferCompare_refl (a : List Nat) : bufferCompare a a = Ordering.eq := by
  induction a with
  | nil => rfl
  | cons x xs ih => simp [bufferCompare, ih]

theorem bufferCompare_cons_ne_gt {x y : Nat} {xs ys : List Nat} :
    bufferCompare (x :: xs) (y :: ys) ≠ Ordering.gt
      ↔ x < y ∨ (x = y ∧ bufferCompare xs ys ≠ Ordering.gt) := by
  simp only [bufferCompare]
  by_cases h1 : x < y
  · simp [h1]
  · by_cases h2 : y < x
    · simp [h1, h2]
      omega
    · have hxy : x = y := by omega
      simp [h1, h2, hxy]

theorem bufferCompare_le_total :
    ∀ a b : List Nat, bufferCompare a b ≠ Ordering.gt ∨ bufferCompare b a ≠ Ordering.gt := by
  intro a
  induction a with
  | nil => intro b; left; cases b <;> simp [bufferCompare]
  | cons x xs ih =>
    intro b
    cases b with
    | nil => right; simp [bufferCompare]
    | cons y ys =>
      by_cases h1 : x < y
      · left; rw [bufferCompare_cons_ne_gt]; exact Or.inl h1
      · by_cases h2 : y < x
        · right; rw [bufferCompare_cons_ne_gt]; exact Or.inl h2
        · have hxy : x = y := by omega
          rcases ih ys with h | h
          · left; rw [bufferCompare_cons_ne_gt]; exact Or.inr ⟨hxy, h⟩
          · right; rw [bufferCompare_cons_ne_gt]; exact Or.inr ⟨hxy.symm, h⟩

theorem bufferCompare_le_trans :
    ∀ a b c : List Nat, bufferCompare a b ≠ Ordering.gt → bufferCompare b c ≠ Ordering.gt →
      bufferCompare a c ≠ Ordering.gt := by
  intro a
  induction a with
  | nil => intro b c _ _; cases c <;> simp [bufferCompare]
  | cons x xs ih =>
    intro b c hab hbc
    cases b with
    | nil => simp [bufferCompare] at hab
    | cons y ys =>
      cases c with
      | nil => simp [bufferCompare] at hbc
      | cons z zs =>
        rw [bufferCompare_cons_ne_gt] at hab hbc ⊢
        rcases hab with h1 | ⟨h1, h1r⟩
        · rcases hbc with h2 | ⟨h2, _⟩
          · exact Or.inl (by omega)
          · exact Or.inl (by omega)
        · rcases hbc with h2 | ⟨h2, h2r⟩
          · exact Or.inl (by omega)
          · exact Or.inr ⟨by omega, ih ys zs h1r h2r⟩

/-- C5: for every nonempty outpoint list and `A_sum` encoding, the input
hash is the tagged hash of the lexicographically smallest serialized
outpoint (`reversed-txid ‖ LE32-index`, compared with `Buffer.compare`
semantics) followed by the compressed `A_sum`. -/
theorem C5_inputHash (sha : List Nat → List Nat) (vinOutpoints : List Outpoint)
    (A_sumBytes : List Nat) (h : vinOutpoints ≠ []) :
    ∃ minSer, minSer ∈ vinOutpoints.map serializeOutpoint
      ∧ (∀ s ∈ vinOutpoints.map serializeOutpoint, bufferCompare minSer s ≠ Ordering.gt)
      ∧ _getInputHash sha vinOutpoints A_sumBytes
          = some (taggedHash sha (minSer ++ A_sumBytes) ("BIP0352/Inputs")) := by
  letI : IsTotal (List Nat) (fun a b => bufferCompare a b ≠ Ordering.gt) :=
    ⟨bufferCompare_le_total⟩
  letI : IsTrans (List Nat) (fun a b => bufferCompare a b ≠ Ordering.gt) :=
    ⟨bufferCompare_le_trans⟩
  have hperm := List.perm_insertionSort (fun a b => bufferCompare a b ≠ Ordering.gt)
    (vinOutpoints.map serializeOutpoint)
  have hsorted := List.sorted_insertionSort (fun a b => bufferCompare a b ≠ Ordering.gt)
    (vinOutpoints.map serializeOutpoint)
  cases hsort : (vinOutpoints.map serializeOutpoint).insertionSort
      (fun a b => bufferCompare a b ≠ Ordering.gt) with
  | nil =>
    exfalso
    rw [hsort] at hperm
    have := hperm.symm.eq_nil
    exact h (List.map_eq_nil.mp this)
  | cons m rest =>
    rw [hsort] at hperm hsorted
    refine ⟨m, ?_, ?_, ?_⟩
    · exact hperm.mem_iff.mp (List.mem_cons_self m rest)
    · intro s hs
      rcases List.mem_cons.mp (hperm.symm.mem_iff.mp hs) with h1 | h2
      · subst h1
        rw [bufferCompare_refl]
        intro hx
        exact Ordering.noConfusion hx
      · exact List.rel_of_sorted_cons hsorted s h2
    · simp only [_getInputHash, hsort]

theorem C5_inputHash_witness :
    ∃ minSer, minSer ∈ ([{ txid := [2], index := 0 }, { txid := [1], index := 0 }]
          : List Outpoint).map serializeOutpoint
      ∧ (∀ s ∈ ([{ txid := [2], index := 0 }, { txid := [1], index := 0 }]
            : List Outpoint).map serializeOutpoint, bufferCompare minSer s ≠ Ordering.gt)
      ∧ _getInputHash shaToy [{ txid := [2], index := 0 }, { txid := [1], index := 0 }] [9]
          = some (taggedHash shaToy (minSer ++ [9]) ("BIP0352/Inputs")) :=
  C5_inputHash shaToy [{ txid := [2], index := 0 }, { txid := [1], index := 0 }] [9]
    (List.cons_ne_nil _ _)

/-- C7: decoding an encoded silent-payment address reproduces the scan and
spend points and the network, for mainnet (`sp`) and testnet (`tsp`). -/
theorem C7_address_roundtrip {Point : Type} (E : EC Point) (a : SilentPaymentAddress Point)
    (hscan : E.keyFromPublic (E.encodeCompressed a.B_scan) = a.B_scan)
    (hspend : E.keyFromPublic (E.encodeCompressed a.B_spend) = a.B_spend)
    (hslen : (E.encodeCompressed a.B_scan).length = 33)
    (hsb : ∀ b ∈ E.encodeCompressed a.B_scan, b < 256)
    (hpb : ∀ b ∈ E.encodeCompressed a.B_spend, b < 256)
    (hver : a.version = 0)
    (hnet : a.network = Network.mainnet ∨ a.network = Network.testnet) :
    SilentPaymentAddress.fromAddress E (SilentPaymentAddress.toAddress E a)
      = .ok { B_scan := a.B_scan, B_spend := a.B_spend, network := a.network, version := 0 } := by
  have hbytes : ∀ b ∈ E.encodeCompressed a.B_scan ++ E.encodeCompressed a.B_spend, b < 256 := by
    intro b hb
    rcases List.mem_append.mp hb with h | h
    · exact hsb b h
    · exact hpb b h
  have hlt32 : ∀ v ∈ Bech32.convertToBase32
      (E.encodeCompressed a.B_scan ++ E.encodeCompressed a.B_spend), v < 32 := by
    rw [Bech32.convertToBase32_spec _ hbytes]
    intro v hv
    have := Bech32.chunks_lt 5 _ _ v hv
    omega
  have hdata32 : ∀ v ∈ (0 : Nat) :: Bech32.convertToBase32
      (E.encodeCompressed a.B_scan ++ E.encodeCompressed a.B_spend), v < 32 := by
    intro v hv
    rcases List.mem_cons.mp hv with h | h
    · omega
    · exact hlt32 v h
  have hkey : Bech32.convertFromBase32 (Bech32.convertToBase32
        (E.encodeCompressed a.B_scan ++ E.encodeCompressed a.B_spend))
      = E.encodeCompressed a.B_scan ++ E.encodeCompressed a.B_spend :=
    Bech32.fromBase32_toBase32 _ hbytes
  rcases hnet with h | h
  · have henc : SilentPaymentAddress.toAddress E a
        = Bech32.encodeBech32 (strB ("sp")) ((0 : Nat) :: Bech32.convertToBase32
            (E.encodeCompressed a.B_scan ++ E.encodeCompressed a.B_spend)) := by
      rw [SilentPaymentAddress.toAddress, h, hver]
      rfl
    have hdec := Bech32.decode_encode (strB ("sp"))
      ((0 : Nat) :: Bech32.convertToBase32
        (E.encodeCompressed a.B_scan ++ E.encodeCompressed a.B_spend))
      (by constructor <;> decide) (List.cons_ne_nil _ _) hdata32
    rw [SilentPaymentAddress.fromAddress, henc, hdec]
    simp only []
    rw [if_neg (by decide)]
    simp only [List.getD_cons_zero, List.drop_one, List.tail_cons]
    rw [if_neg (by decide)]
    rw [hkey, List.take_left' hslen, List.drop_left' hslen, hscan, hspend, h]
    rw [if_neg (by decide)]
  · have henc : SilentPaymentAddress.toAddress E a
        = Bech32.encodeBech32 (strB ("tsp")) ((0 : Nat) :: Bech32.convertToBase32
            (E.encodeCompressed a.B_scan ++ E.encodeCompressed a.B_spend)) := by
      rw [SilentPaymentAddress.toAddress, h, hver]
      rfl
    have hdec := Bech32.decode_encode (strB ("tsp"))
      ((0 : Nat) :: Bech32.convertToBase32
        (E.encodeCompressed a.B_scan ++ E.encodeCompressed a.B_spend))
      (by constructor <;> decide) (List.cons_ne_nil _ _) hdata32
    rw [SilentPaymentAddress.fromAddress, henc, hdec]
    simp only []
    rw [if_neg (by decide)]
    simp only [List.getD_cons_zero, List.drop_one, List.tail_cons]
    rw [if_neg (by decide)]
    rw [hkey, List.take_left' hslen, List.drop_left' hslen, hscan, hspend, h]
    rw [if_pos (by decide)]

set_option maxRecDepth 40000 in
theorem C7_address_roundtrip_witness :
    SilentPaymentAddress.fromAddress ecToy (SilentPaymentAddress.toAddress ecToy
        { B_scan := 3, B_spend := 4, network := Network.mainnet, version := 0 })
      = .ok { B_scan := 3, B_spend := 4, network := Network.mainnet, version := 0 } :=
  C7_address_roundtrip ecToy
    { B_scan := 3, B_spend := 4, network := Network.mainnet, version := 0 }
    (by decide) (by decide) (by decide) (by decide) (by decide) rfl (Or.inl rfl)
